import Mathlib

/-!
Verification development for a sliding-token puzzle engine: a 16×16 board
assembled from four rotated 8×8 modules, a slide-with-refraction move
simulator, and a breadth-first search over joint token states.
The definitions below are shallow embeddings of the JavaScript sources
(`Rotator.js` / `PathFinder`, `Prism`, `Cell`, `SmallBoard`, `Board`).
Coordinates are modelled as `Int` (JavaScript numbers restricted to the
integer values these programs manipulate); colors, prism orientations and
shapes are the source's string tags.
-/

namespace Puzzle

/-- Movement directions; the source uses the strings
'up', 'down', 'left', 'right'. -/
inductive Dir where
  | up
  | down
  | left
  | right
deriving DecidableEq, Repr

/-- Wall sides; the source uses the strings 'top', 'right', 'bottom', 'left'. -/
inductive Side where
  | top
  | right
  | bottom
  | left
deriving DecidableEq, Repr

/-- Source class `Prism` (分光镜) from `Prism.js`: a colored diagonal refractor.
`direction` is the orientation string: the source's two legal values are
the backslash diagonal and the slash diagonal. -/
structure Prism where
  x : Int
  y : Int
  direction : String
  color : String
deriving DecidableEq, Repr

/-- Source class `Target` from `Target.js`: a goal cell marker. -/
structure Target where
  x : Int
  y : Int
  shape : String
  color : String
  id : String
deriving DecidableEq, Repr

/-- The `walls` record of `Cell.js`: four independent boolean flags. -/
structure Walls where
  top : Bool
  right : Bool
  bottom : Bool
  left : Bool
deriving DecidableEq, Repr

/-- Source class `Cell` from `Cell.js`.  The source also stores the cell's own (x, y);
those fields merely duplicate the cell's grid position and are never read
by the game logic, so they are omitted here. -/
structure Cell where
  walls : Walls
  prism : Option Prism
  target : Option Target
deriving DecidableEq, Repr

/-- Constructor `new Cell(x, y)`: all wall flags false, no prism, no target. -/
def Cell.new : Cell := ⟨⟨false, false, false, false⟩, none, none⟩

/-- Read one wall flag of a `Walls` record. -/
def Walls.get (w : Walls) : Side → Bool
  | .top => w.top
  | .right => w.right
  | .bottom => w.bottom
  | .left => w.left

/-- Overwrite one wall flag of a `Walls` record. -/
def Walls.set (w : Walls) (s : Side) (v : Bool) : Walls :=
  match s with
  | .top => { w with top := v }
  | .right => { w with right := v }
  | .bottom => { w with bottom := v }
  | .left => { w with left := v }

/-- Method `Cell.hasWall(direction)`. -/
def Cell.hasWall (c : Cell) (s : Side) : Bool := c.walls.get s

/-- Method `Cell.setWall(direction, value)`. -/
def Cell.setWall (c : Cell) (s : Side) (v : Bool) : Cell :=
  { c with walls := c.walls.set s v }

/-- Method `Cell.clear()`: remove prism and target, walls untouched. -/
def Cell.clear (c : Cell) : Cell := { c with prism := none, target := none }

/-- Method `Cell.hasPrism()`. -/
def Cell.hasPrism (c : Cell) : Bool := c.prism.isSome

/-- Method `Cell.hasTarget()`. -/
def Cell.hasTarget (c : Cell) : Bool := c.target.isSome

/-- Method `Cell.setPrism(prism)`. -/
def Cell.setPrism (c : Cell) (p : Prism) : Cell := { c with prism := some p }

/-- Method `Cell.setTarget(target)`. -/
def Cell.setTarget (c : Cell) (t : Target) : Cell := { c with target := some t }

/-- Constant `CONSTANTS.SMALL_BOARD_SIZE`. -/
def SMALL_BOARD_SIZE : Nat := 8

/-- Constant `CONSTANTS.LARGE_BOARD_SIZE`. -/
def LARGE_BOARD_SIZE : Nat := 16

/-- Method `Prism.calculateRefraction(inDirection)`: the fixed refraction table,
keyed on the prism's diagonal orientation.  The source tests
`this.direction === the backslash string` and treats every other
orientation via the slash table (its else branch). -/
def Prism.calculateRefraction (p : Prism) (d : Dir) : Dir :=
  if p.direction = "\\" then
    match d with
    | .right => .down
    | .down => .right
    | .left => .up
    | .up => .left
  else
    match d with
    | .right => .up
    | .up => .right
    | .left => .down
    | .down => .left

/-- Method `Prism.refract(inDirection, robotColor)`: same color passes the
direction through unchanged, otherwise the refraction table applies. -/
def Prism.refract (p : Prism) (d : Dir) (robotColor : String) : Dir :=
  if robotColor = p.color then d else p.calculateRefraction d

/-- The playing board as consumed by the path finder: a 16×16 grid of
cells (`Board.cells` in `Board.js`, indexed `cells[y][x]`). -/
structure Board where
  cells : Nat → Nat → Cell

/-- Property `Board.size` is always `CONSTANTS.LARGE_BOARD_SIZE`. -/
def Board.size (_ : Board) : Nat := LARGE_BOARD_SIZE

/-- Method `Board.getCell(x, y)`: `null` outside the 16×16 range. -/
def Board.getCell (b : Board) (x y : Int) : Option Cell :=
  if x < 0 ∨ 16 ≤ x ∨ y < 0 ∨ 16 ≤ y then none
  else some (b.cells x.toNat y.toNat)

/-- Method `Board.isInCentralArea(x, y)`: `CONSTANTS.CENTRAL_BLOCKED` is
columns 7–8 and rows 7–8. -/
def isInCentralArea (x y : Int) : Bool :=
  (x = 7 ∨ x = 8) ∧ (y = 7 ∨ y = 8)

/-- Method `Board.isValidPosition(x, y)`: in range and not in the central dead
zone. -/
def isValidPosition (x y : Int) : Bool :=
  if x < 0 ∨ 16 ≤ x ∨ y < 0 ∨ 16 ≤ y then false
  else !(isInCentralArea x y)

/-! Section: PathFinder single-slide movement (`moveInDirection`, `simulateMove`). -/

/-- A robot state as manipulated by `PathFinder` (color plus position). -/
structure RobotState where
  color : String
  x : Int
  y : Int
deriving DecidableEq, Repr

/-- The `deltas` table of `moveInDirection`. -/
def dirDelta : Dir → Int × Int
  | .up => (0, -1)
  | .down => (0, 1)
  | .left => (-1, 0)
  | .right => (1, 0)

/-- The `wallMap` of `hasWallInDirection`. -/
def wallMap : Dir → Side
  | .up => .top
  | .down => .bottom
  | .left => .left
  | .right => .right

/-- Method `PathFinder.hasWallInDirection(cell, direction)`: a missing cell
counts as a wall. -/
def hasWallInDirection (c : Option Cell) (d : Dir) : Bool :=
  match c with
  | none => true
  | some cell => cell.hasWall (wallMap d)

/-- Result of `moveInDirection`. -/
structure MidResult where
  moved : Bool
  x : Int
  y : Int
deriving DecidableEq, Repr

/-- The `while (true)` loop body of `PathFinder.moveInDirection`,
with an explicit fuel.  Each iteration either stops or strictly advances
one cell inside the 16×16 range, so fuel 16 is never exhausted
(`midLoop_fuel_ge` below); the source loop is unbounded.
Blocking checks, in source order: board boundary, central dead zone,
wall on the current cell facing the move, another robot on the next cell
(the occupant test excludes exactly the position `(startX, startY)` the
slide began from); after advancing, arrival on a prism cell stops the
segment. -/
def midLoop (b : Board) (d : Dir) (allRobots : List RobotState)
    (startX startY : Int) : Nat → Int → Int → Bool → MidResult
  | 0, x, y, m => ⟨m, x, y⟩
  | fuel + 1, x, y, m =>
    let nextX := x + (dirDelta d).1
    let nextY := y + (dirDelta d).2
    if nextX < 0 ∨ 16 ≤ nextX ∨ nextY < 0 ∨ 16 ≤ nextY then ⟨m, x, y⟩
    else if isInCentralArea nextX nextY then ⟨m, x, y⟩
    else if hasWallInDirection (b.getCell x y) d then ⟨m, x, y⟩
    else if allRobots.any (fun r =>
        r.x = nextX ∧ r.y = nextY ∧ ¬(r.x = startX ∧ r.y = startY)) then ⟨m, x, y⟩
    else if (b.getCell nextX nextY).elim false Cell.hasPrism then ⟨true, nextX, nextY⟩
    else midLoop b d allRobots startX startY fuel nextX nextY true

/-- Method `PathFinder.moveInDirection(startX, startY, direction, allRobots)`. -/
def moveInDirection (b : Board) (startX startY : Int) (d : Dir)
    (allRobots : List RobotState) : MidResult :=
  midLoop b d allRobots startX startY 16 startX startY false

/-- One recorded move segment: `{ from: {x, y, direction}, to: {x, y},
direction }` in `simulateMove`. -/
structure Segment where
  fromX : Int
  fromY : Int
  fromDir : Dir
  toX : Int
  toY : Int
  direction : Dir
deriving DecidableEq, Repr

/-- Result of `simulateMove`. -/
structure MoveResult where
  moved : Bool
  finalX : Int
  finalY : Int
  segments : List Segment
deriving DecidableEq, Repr

/-- Rendering of a direction, as the source's direction strings. -/
def dirStr : Dir → String
  | .up => "up"
  | .down => "down"
  | .left => "left"
  | .right => "right"

/-- The cycle-detection key of `simulateMove`: the string
x-comma-y-comma-direction. -/
def simKey (x y : Int) (d : Dir) : String :=
  toString x ++ "," ++ toString y ++ "," ++ dirStr d

/-- The `while (stepCount < maxSteps)` loop of `PathFinder.simulateMove`.
The fuel is exactly `maxSteps - stepCount` (`maxSteps = 100` at entry):
only the refraction-continue branch increments `stepCount` in the source,
and every other branch leaves the loop, so this structural recursion is
the source loop verbatim.  Returns final position and segments. -/
def simLoop (b : Board) (robot : RobotState) (allRobots : List RobotState) :
    Nat → Int → Int → Dir → List Segment → List String → Int × Int × List Segment
  | 0, x, y, _, segs, _ => (x, y, segs)
  | fuel + 1, x, y, dir, segs, vis =>
    let mr := moveInDirection b x y dir allRobots
    if !mr.moved then (x, y, segs)
    else
      let segs' := segs ++ [⟨x, y, dir, mr.x, mr.y, dir⟩]
      match (b.getCell mr.x mr.y).bind Cell.prism with
      | none => (mr.x, mr.y, segs')
      | some p =>
        let newDir := p.refract dir robot.color
        if newDir = dir then (mr.x, mr.y, segs')
        else
          let key := simKey mr.x mr.y newDir
          if vis.contains key then (mr.x, mr.y, segs')
          else simLoop b robot allRobots fuel mr.x mr.y newDir segs' (vis ++ [key])

/-- Method `PathFinder.simulateMove(robot, direction, allRobots)`.  The source's
`firstMove` flag is dead (both of its branches `break`) and is omitted.
`moved` compares the final position with the robot's starting position. -/
def simulateMove (b : Board) (robot : RobotState) (dir : Dir)
    (allRobots : List RobotState) : MoveResult :=
  let r := simLoop b robot allRobots 100 robot.x robot.y dir [] []
  ⟨decide (r.1 ≠ robot.x ∨ r.2.1 ≠ robot.y), r.1, r.2.1, r.2.2⟩

/-! Section: PathFinder breadth-first search (`stateToString`, `bfsSearch`,
`findPath`). -/

/-- The per-robot component of `stateToString`: color-colon-x-comma-y. -/
def encRobot (r : RobotState) : String :=
  r.color ++ ":" ++ toString r.x ++ "," ++ toString r.y

/-- Insert a string into a lexicographically sorted list. -/
def insertSortedStr (s : String) : List String → List String
  | [] => [s]
  | t :: ts => if s ≤ t then s :: t :: ts else t :: insertSortedStr s ts

/-- Lexicographic string sort, as JavaScript's default `Array.sort` on
the all-ASCII strings produced by `encRobot`. -/
def sortStrings (l : List String) : List String := l.foldr insertSortedStr []

/-- Method `PathFinder.stateToString(robots)`: per-robot strings, sorted, joined
with a bar separator. -/
def stateToString (robots : List RobotState) : String :=
  String.intercalate "|" (sortStrings (robots.map encRobot))

/-- One entry of a solution `path`. -/
structure PathStep where
  robotColor : String
  direction : Dir
  fromX : Int
  fromY : Int
  toX : Int
  toY : Int
  segments : List Segment
deriving DecidableEq, Repr

/-- A queue entry of `bfsSearch`: `{robots, path, steps}`. -/
structure Node where
  robots : List RobotState
  path : List PathStep
  steps : Nat
deriving DecidableEq, Repr

/-- Outcome of `bfsSearch`.  `time` (wall-clock milliseconds) is not
modelled; every constructor that carries `statesExplored` also carries
`time` in the source and vice versa.  `jsCrash` models the JavaScript
`TypeError` that would escape if `newRobots.find(...)` returned
`undefined`; it is proven unreachable. -/
inductive BfsOutcome where
  | success (steps : Nat) (path : List PathStep) (statesExplored : Nat)
  | tooLarge (statesExplored : Nat)
  | noPath (statesExplored : Nat)
  | jsCrash
deriving DecidableEq, Repr

/-- Constant `this.maxIterations = 1000000`. -/
def maxIterations : Nat := 1000000

/-- The `directions` array of `bfsSearch`. -/
def directions : List Dir := [.up, .down, .left, .right]

/-- The (robot index, direction) pairs tried from a dequeued state, in
source order: robots outer, directions inner. -/
def movePairs (n : Nat) : List (Nat × Dir) :=
  (List.range n).flatMap (fun i => directions.map (fun d => (i, d)))

/-- Result of expanding one dequeued state. -/
inductive ExpandStep where
  | found (steps : Nat) (path : List PathStep)
  | crash
  | cont (acc : List Node) (vis : List String)
deriving DecidableEq, Repr

/-- The nested robot/direction loops inside the `while` of
`bfsSearch`, expanding the dequeued state `cur`:
simulate each move, skip zero-displacement moves, accept a state whose
target-colored robot sits on the goal only when the new step count is at
least 2 (a count of 1 is discarded and iteration continues), and
otherwise enqueue the new state unless its canonical string was already
visited. -/
def expandMoves (b : Board) (targetColor : String) (tx ty : Int) (cur : Node) :
    List (Nat × Dir) → List Node → List String → ExpandStep
  | [], acc, vis => .cont acc vis
  | (i, d) :: rest, acc, vis =>
    match cur.robots[i]? with
    | none => .crash
    | some robot =>
      let mr := simulateMove b robot d cur.robots
      if !mr.moved then expandMoves b targetColor tx ty cur rest acc vis
      else
        let newRobots := cur.robots.mapIdx (fun idx r =>
          if idx = i then ⟨r.color, mr.finalX, mr.finalY⟩ else r)
        match newRobots.find? (fun r => r.color == targetColor) with
        | none => .crash
        | some movedRobot =>
          let step : PathStep :=
            ⟨robot.color, d, robot.x, robot.y, mr.finalX, mr.finalY, mr.segments⟩
          if movedRobot.x = tx ∧ movedRobot.y = ty then
            if cur.steps + 1 < 2 then expandMoves b targetColor tx ty cur rest acc vis
            else .found (cur.steps + 1) (cur.path ++ [step])
          else
            let s := stateToString newRobots
            if vis.contains s then expandMoves b targetColor tx ty cur rest acc vis
            else expandMoves b targetColor tx ty cur rest
              (acc ++ [⟨newRobots, cur.path ++ [step], cur.steps + 1⟩]) (vis ++ [s])

/-- The `while (queue.length > 0)` loop of `bfsSearch`.  The fuel only
realizes termination: every iteration increments `statesExplored` and the
guard aborts once it exceeds `maxIterations`, so with
`fuel + statesExplored = maxIterations + 2` the fuel never reaches 0 on a
nonempty queue (`bfsLoop` is always entered that way). -/
def bfsLoop (b : Board) (targetColor : String) (tx ty : Int) :
    Nat → List Node → List String → Nat → BfsOutcome
  | _, [], _, se => .noPath se
  | 0, _ :: _, _, se => .tooLarge se
  | fuel + 1, cur :: rest, vis, se =>
    if maxIterations < se then .tooLarge se
    else
      match expandMoves b targetColor tx ty cur (movePairs cur.robots.length) [] vis with
      | .found st pa => .success st pa (se + 1)
      | .crash => .jsCrash
      | .cont newNodes vis' =>
        bfsLoop b targetColor tx ty fuel (rest ++ newNodes) vis' (se + 1)

/-- Method `PathFinder.bfsSearch(targetRobot, targetPos, startTime)`: initial
queue holds the starting joint state at step 0, whose canonical string
seeds the visited set. -/
def bfsSearch (b : Board) (robots : List RobotState) (targetColor : String)
    (tx ty : Int) : BfsOutcome :=
  bfsLoop b targetColor tx ty (maxIterations + 2) [⟨robots, [], 0⟩]
    [stateToString robots] 0

/-- Outcome of `findPath`.  Mirrors the source's return objects:
`notFound` and `invalidTarget` carry only `success: false` and a message
(no statesExplored / time diagnostics); the zero-action trivial success
is `success 0 [] 0`; search outcomes are forwarded from `bfsSearch`. -/
inductive FindResult where
  | notFound (message : String)
  | invalidTarget (message : String)
  | success (steps : Nat) (path : List PathStep) (statesExplored : Nat)
  | tooLarge (statesExplored : Nat)
  | noPath (statesExplored : Nat)
  | crash
deriving DecidableEq, Repr

/-- Method `PathFinder.findPath(robotColor, targetPos)`. -/
def findPath (b : Board) (robots : List RobotState) (robotColor : String)
    (tx ty : Int) : FindResult :=
  match robots.find? (fun r => r.color == robotColor) with
  | none => .notFound ("Robot " ++ robotColor ++ " not found")
  | some targetRobot =>
    if !(isValidPosition tx ty) then .invalidTarget "Target position is invalid"
    else if targetRobot.x = tx ∧ targetRobot.y = ty then .success 0 [] 0
    else
      match bfsSearch b robots targetRobot.color tx ty with
      | .success st pa se => .success st pa se
      | .tooLarge se => .tooLarge se
      | .noPath se => .noPath se
      | .jsCrash => .crash

/-! Section: run semantics.  A run is a sequence of (robot index,
direction) actions applied through `simulateMove`, exactly as the search
applies them; these notions state what a "solution sequence" is. -/

/-- Apply one action to a joint state: simulate robot `i` sliding in
direction `d`; `none` when the index is out of range or the move has
zero displacement.  The state update is the `newRobots` construction of
`bfsSearch`. -/
def moveOutcome (b : Board) (robots : List RobotState) (i : Nat) (d : Dir) :
    Option (List RobotState) :=
  match robots[i]? with
  | none => none
  | some robot =>
    let mr := simulateMove b robot d robots
    if mr.moved then
      some (robots.mapIdx fun idx r =>
        if idx = i then ⟨r.color, mr.finalX, mr.finalY⟩ else r)
    else none

/-- Apply a list of actions in order; `none` as soon as one is invalid. -/
def runMoves (b : Board) : List RobotState → List (Nat × Dir) → Option (List RobotState)
  | robots, [] => some robots
  | robots, (i, d) :: ms =>
    match moveOutcome b robots i d with
    | none => none
    | some robots' => runMoves b robots' ms

/-- The acceptance test of `bfsSearch`: the first robot of the target
color sits exactly on the goal cell. -/
def targetOnGoal (robots : List RobotState) (tc : String) (tx ty : Int) : Bool :=
  match robots.find? (fun r => r.color == tc) with
  | some r => decide (r.x = tx ∧ r.y = ty)
  | none => false

/-- A solution sequence exactly as claimed: valid non-zero-displacement
actions, at least 2 of them, after which the target token is on the goal
cell. -/
def isWinSeq (b : Board) (robots0 : List RobotState) (tc : String)
    (tx ty : Int) (ms : List (Nat × Dir)) : Bool :=
  decide (2 ≤ ms.length) &&
    (runMoves b robots0 ms).elim false (fun r => targetOnGoal r tc tx ty)

/-- A solution sequence as the search's transition system can traverse
it: a win sequence in which the target token is on the goal only after
the final action and the joint state just before the final action is not
the initial joint state.  (`bfsSearch` never enqueues a joint state whose
target token sits on the goal, and the initial state is in the visited
set from the start, so these are exactly the solutions its breadth-first
traversal ranges over.) -/
def MachineWinSeq (b : Board) (robots0 : List RobotState) (tc : String)
    (tx ty : Int) (ms : List (Nat × Dir)) : Prop :=
  isWinSeq b robots0 tc tx ty ms = true ∧
  (∀ n : Nat, n < ms.length →
    ((runMoves b robots0 (ms.take n)).elim false
      (fun r => !(targetOnGoal r tc tx ty))) = true) ∧
  runMoves b robots0 (ms.take (ms.length - 1)) ≠ some robots0

instance (b : Board) (robots0 : List RobotState) (tc : String) (tx ty : Int)
    (ms : List (Nat × Dir)) : Decidable (MachineWinSeq b robots0 tc tx ty ms) := by
  unfold MachineWinSeq; infer_instance

/-! Section: the claim's own blocking condition, and result diagnostics. -/

/-- Blocking as the specification words it: boundary, dead zone, wall on
the current cell, or a different token on the next cell ("different"
meaning a robot entry other than the moving token itself). -/
def ClaimBlocked (b : Board) (robots : List RobotState) (mover : RobotState)
    (d : Dir) (x y : Int) : Prop :=
  (x + (dirDelta d).1 < 0 ∨ 16 ≤ x + (dirDelta d).1 ∨
    y + (dirDelta d).2 < 0 ∨ 16 ≤ y + (dirDelta d).2) ∨
  isInCentralArea (x + (dirDelta d).1) (y + (dirDelta d).2) = true ∨
  hasWallInDirection (b.getCell x y) d = true ∨
  ∃ r ∈ robots, r ≠ mover ∧ r.x = x + (dirDelta d).1 ∧ r.y = y + (dirDelta d).2

instance (b : Board) (rs : List RobotState) (mover : RobotState) (d : Dir)
    (x y : Int) : Decidable (ClaimBlocked b rs mover d x y) := by
  unfold ClaimBlocked; infer_instance

/-- Whether a `findPath` outcome carries the statesExplored (and hence
elapsed-time) diagnostics in its payload. -/
def hasDiagnostics : FindResult → Bool
  | .notFound _ => false
  | .invalidTarget _ => false
  | .success _ _ _ => true
  | .tooLarge _ => true
  | .noPath _ => true
  | .crash => false

/-! Section: concrete boards used as test inputs. -/

/-- A 16×16 board with no walls, prisms or targets. -/
def bEmpty : Board := ⟨fun _ _ => Cell.new⟩

/-- A board whose only content is a yellow backslash refractor at (3, 3)
(the spec's concrete refraction scenario). -/
def bPrism : Board :=
  ⟨fun x y =>
    if x = 3 ∧ y = 3 then Cell.new.setPrism ⟨3, 3, "\\", "yellow"⟩ else Cell.new⟩

/-- A board with three yellow refractors arranged so that a red token
sliding right from (1, 0) is refracted down, left, then up, and the
upward segment runs back toward the token's own starting cell:
(3, 0) backslash, (3, 3) slash, (1, 3) backslash. -/
def bGhost : Board :=
  ⟨fun x y =>
    if x = 3 ∧ y = 0 then Cell.new.setPrism ⟨3, 0, "\\", "yellow"⟩
    else if x = 3 ∧ y = 3 then Cell.new.setPrism ⟨3, 3, "/", "yellow"⟩
    else if x = 1 ∧ y = 3 then Cell.new.setPrism ⟨1, 3, "\\", "yellow"⟩
    else Cell.new⟩

/-- A board with two wall pairs: right of (5, 0) (mirrored on (6, 0))
and left of (5, 15) (mirrored on (4, 15)).  With a single red token at
(0, 0) and goal (5, 0), the direct one-slide win is discarded and the
search needs 4 actions, although the 3-action sequence
down, up (returning to the start), right also ends on the goal. -/
def bMin : Board :=
  ⟨fun x y =>
    if x = 5 ∧ y = 0 then Cell.new.setWall .right true
    else if x = 6 ∧ y = 0 then Cell.new.setWall .left true
    else if x = 5 ∧ y = 15 then Cell.new.setWall .left true
    else if x = 4 ∧ y = 15 then Cell.new.setWall .right true
    else Cell.new⟩

/-! Section: orientation transforms (`Rotator.js`) and module faces
(`SmallBoard.js`), and composite board assembly (`Board.js`). -/

/-- Method `Rotator.rotatePoint(x, y, angle, size)`: clockwise rotation
of a point in a `size`-sized square.  The source throws on any angle
other than 0, 90, 180, 270; its callers only produce those four values
(see `calculateRotationAngle`), and here other angles fall back to the
identity. -/
def rotatePoint (x y : Int) (angle : Nat) (size : Int) : Int × Int :=
  let maxIndex := size - 1
  match angle with
  | 0 => (x, y)
  | 90 => (maxIndex - y, x)
  | 180 => (maxIndex - x, maxIndex - y)
  | 270 => (y, maxIndex - x)
  | _ => (x, y)

/-- Method `Rotator.rotatePrismDirection(direction, angle)`: the two
diagonals swap at 90 and 270 degrees and are fixed at 0 and 180. -/
def rotatePrismDirection (direction : String) (angle : Nat) : String :=
  let rotations := (angle / 90) % 4
  if rotations = 0 ∨ rotations = 2 then direction
  else if direction = "\\" then "/" else "\\"

/-- Index of a side in the source's `sides` array
['top', 'right', 'bottom', 'left']. -/
def sideIdx : Side → Nat
  | .top => 0
  | .right => 1
  | .bottom => 2
  | .left => 3

/-- Method `Rotator.rotateWallSide(side, angle)`: cyclic shift of the
side index by `angle / 90` steps. -/
def rotateWallSide (side : Side) (angle : Nat) : Side :=
  match (sideIdx side + (angle / 90) % 4) % 4 with
  | 0 => .top
  | 1 => .right
  | 2 => .bottom
  | _ => .left

/-- Method `Prism.rotate(angle, size)`. -/
def Prism.rotate (p : Prism) (angle : Nat) (size : Int) : Prism :=
  let np := rotatePoint p.x p.y angle size
  ⟨np.1, np.2, rotatePrismDirection p.direction angle, p.color⟩

/-- Method `Target.rotate(angle, size)`. -/
def Target.rotate (t : Target) (angle : Nat) (size : Int) : Target :=
  let np := rotatePoint t.x t.y angle size
  ⟨np.1, np.2, t.shape, t.color, t.id⟩

/-- The `getCorner` helper of `Rotator.calculateRotationAngle`;
`none` models its throw on a non-corner gap position. -/
def getCorner (pos : Int × Int) : Option Nat :=
  if pos.1 = 0 ∧ pos.2 = 0 then some 0
  else if pos.1 = 7 ∧ pos.2 = 0 then some 1
  else if pos.1 = 7 ∧ pos.2 = 7 then some 2
  else if pos.1 = 0 ∧ pos.2 = 7 then some 3
  else none

/-- Method `Rotator.calculateRotationAngle(originalGap, targetGap)`. -/
def calculateRotationAngle (originalGap targetGap : Int × Int) : Option Nat :=
  match getCorner originalGap, getCorner targetGap with
  | some oc, some tc => some ((((tc : Int) - (oc : Int) + 4) % 4).toNat * 90)
  | _, _ => none

/-- A grid of cells, indexed x then y (the source stores `cells[y][x]`). -/
def Grid : Type := Nat → Nat → Cell

/-- Overwrite the cell at one position with a transformed value. -/
def modifyCell (g : Grid) (px py : Nat) (f : Cell → Cell) : Grid :=
  fun x y => if x = px ∧ y = py then f (g x y) else g x y

/-- Authored wall record of a face: cell coordinate plus blocked sides. -/
structure WallData where
  x : Nat
  y : Nat
  sides : List Side
deriving DecidableEq, Repr

/-- One authored face of a module: walls, prisms, targets (the source's
JSON face object; prisms and targets through their `fromJSON`). -/
structure FaceData where
  id : Nat
  walls : List WallData
  prisms : List Prism
  targets : List Target
deriving DecidableEq, Repr

/-- Authored module data (`SmallBoard` constructor input). -/
structure SmallBoardData where
  id : Nat
  color : String
  originalGap : Int × Int
  faces : List FaceData
deriving DecidableEq, Repr

/-- Displacement and opposite side used when mirroring a wall onto the
adjacent cell (the `opposites` tables of `SmallBoard.syncAdjacentWall`
and `Board.placeSmallBoards`). -/
def oppositeInfo : Side → Int × Int × Side
  | .top => (0, -1, .bottom)
  | .bottom => (0, 1, .top)
  | .left => (-1, 0, .right)
  | .right => (1, 0, .left)

/-- Method `SmallBoard.syncAdjacentWall(cells, x, y, side)`: mirror a
wall onto the in-range neighbor's opposite side. -/
def syncAdjacentWall (size : Nat) (g : Grid) (x y : Nat) (side : Side) : Grid :=
  let info := oppositeInfo side
  let adjX : Int := (x : Int) + info.1
  let adjY : Int := (y : Int) + info.2.1
  if 0 ≤ adjX ∧ adjX < (size : Int) ∧ 0 ≤ adjY ∧ adjY < (size : Int) then
    modifyCell g adjX.toNat adjY.toNat (fun c => c.setWall info.2.2 true)
  else g

/-- Apply one authored wall record: set each listed side on the cell and
mirror it onto the neighbor, as in `SmallBoard.createCells`. -/
def applyWallData (size : Nat) (g : Grid) (w : WallData) : Grid :=
  w.sides.foldl (fun g side =>
    syncAdjacentWall size (modifyCell g w.x w.y (fun c => c.setWall side true))
      w.x w.y side) g

/-- Method `SmallBoard.createCells(faceId)` on a given face: fresh 8×8
cells (no implicit perimeter walls), authored walls with mirroring, then
prisms and targets at their literal coordinates. -/
def createCells (face : FaceData) : Grid :=
  let g0 : Grid := fun _ _ => Cell.new
  let g1 := face.walls.foldl (applyWallData 8) g0
  let g2 := face.prisms.foldl
    (fun g p => modifyCell g p.x.toNat p.y.toNat (fun c => c.setPrism p)) g1
  face.targets.foldl
    (fun g t => modifyCell g t.x.toNat t.y.toNat (fun c => c.setTarget t)) g2

/-- All (x, y) positions of an 8×8 grid, y outer as in the source loops. -/
def smallIdx : List (Nat × Nat) :=
  (List.range 8).flatMap (fun y => (List.range 8).map (fun x => (x, y)))

/-- Transfer one source cell's rotated content into a destination cell
(the inner loop body of `SmallBoard.rotateCells`): each set wall goes to
its rotated side, and prism/target are rotated via their own methods. -/
def mergeRotated (angle : Nat) (old : Cell) (cNew : Cell) : Cell :=
  let c := [Side.top, Side.right, Side.bottom, Side.left].foldl
    (fun c side =>
      if old.hasWall side then c.setWall (rotateWallSide side angle) true else c)
    cNew
  let c := match old.prism with
    | some p => c.setPrism (p.rotate angle 8)
    | none => c
  match old.target with
  | some t => c.setTarget (t.rotate angle 8)
  | none => c

/-- The grid transformation of `SmallBoard.rotateCells` for a nonzero
angle: start from fresh cells and write every source cell's content at
its rotated position. -/
def rotateGridOnce (g : Grid) (angle : Nat) : Grid :=
  smallIdx.foldl
    (fun acc xy =>
      let np := rotatePoint (xy.1 : Int) (xy.2 : Int) angle 8
      modifyCell acc np.1.toNat np.2.toNat (mergeRotated angle (g xy.1 xy.2)))
    (fun _ _ => Cell.new)

/-- Method `SmallBoard.rotateCells(faceId, angle)` on a materialized
face: angle 0 returns the materialized cells unchanged. -/
def rotateCellsG (face : FaceData) (angle : Nat) : Grid :=
  if angle = 0 then createCells face else rotateGridOnce (createCells face) angle

/-- Method `SmallBoard.getFace(faceId)`; `none` models its throw. -/
def getFace (sb : SmallBoardData) (faceId : Nat) : Option FaceData :=
  sb.faces.find? (fun f => f.id == faceId)

/-- The four quadrant positions, in the source's fixed order. -/
inductive Quadrant where
  | topLeft
  | topRight
  | bottomLeft
  | bottomRight
deriving DecidableEq, Repr

/-- The `offsets` table of `Board.placeSmallBoards`. -/
def quadrantOffset : Quadrant → Nat × Nat
  | .topLeft => (0, 0)
  | .topRight => (8, 0)
  | .bottomLeft => (0, 8)
  | .bottomRight => (8, 8)

/-- Constant `CONSTANTS.TARGET_GAPS`. -/
def TARGET_GAPS : Quadrant → Int × Int
  | .topLeft => (7, 7)
  | .topRight => (0, 7)
  | .bottomLeft => (7, 0)
  | .bottomRight => (0, 0)

/-- Method `SmallBoard.calculateRotationForPosition(targetPosition)`. -/
def calculateRotationForPosition (sb : SmallBoardData) (pos : Quadrant) :
    Option Nat :=
  calculateRotationAngle sb.originalGap (TARGET_GAPS pos)

/-- One quadrant selection of a board configuration. -/
structure BoardCfg where
  boardId : Nat
  faceId : Nat
deriving DecidableEq, Repr

/-- Method `Board.createEmptyCells()`: fresh 16×16 cells with the true
outer boundary walls (top of row 0, bottom of row 15, left of column 0,
right of column 15). -/
def emptyBoardGrid : Grid :=
  (List.range 16).foldl
    (fun g i =>
      let g := modifyCell g i 0 (fun c => c.setWall .top true)
      let g := modifyCell g i 15 (fun c => c.setWall .bottom true)
      let g := modifyCell g 0 i (fun c => c.setWall .left true)
      modifyCell g 15 i (fun c => c.setWall .right true))
    (fun _ _ => Cell.new)

/-- The color-collecting traversal of `Board.validateConfig()`. -/
def collectColors (smallBoards : List SmallBoardData) :
    List BoardCfg → List String → Except String (List String)
  | [], acc => .ok acc
  | cfg :: rest, acc =>
    match smallBoards[cfg.boardId]? with
    | none => .error ("Small board " ++ toString cfg.boardId ++ " not found")
    | some sb =>
      if sb.color ∈ acc then .error ("Duplicate color: " ++ sb.color)
      else collectColors smallBoards rest (acc ++ [sb.color])

/-- Method `Board.validateConfig()`: the quadrants must resolve to
exactly four pairwise-distinct module colors. -/
def validateConfig (smallBoards : List SmallBoardData)
    (config : List BoardCfg) : Except String Unit :=
  match collectColors smallBoards config [] with
  | .error e => .error e
  | .ok colors =>
    if colors.length ≠ 4 then .error "Board must have 4 different colors"
    else .ok ()

/-- Copy one wall flag onto the big board during assembly (the wall part
of the `Board.placeSmallBoards` copy loop): skip walls lying on the
global outer boundary, otherwise set the wall and mirror it onto the
in-range neighbor. -/
def copyWall (g : Grid) (tX tY : Nat) (side : Side) : Grid :=
  if (side = Side.top ∧ tY = 0) ∨ (side = Side.bottom ∧ tY = 15) ∨
      (side = Side.left ∧ tX = 0) ∨ (side = Side.right ∧ tX = 15) then g
  else
    let g := modifyCell g tX tY (fun c => c.setWall side true)
    let info := oppositeInfo side
    let adjX : Int := (tX : Int) + info.1
    let adjY : Int := (tY : Int) + info.2.1
    if 0 ≤ adjX ∧ adjX < 16 ∧ 0 ≤ adjY ∧ adjY < 16 then
      modifyCell g adjX.toNat adjY.toNat (fun c => c.setWall info.2.2 true)
    else g

/-- Copy one source cell (walls, then prism, then target, coordinates
translated by the quadrant offset) onto the big board. -/
def copyCell (offX offY : Nat) (src : Cell) (x y : Nat) (g : Grid) : Grid :=
  let tX := offX + x
  let tY := offY + y
  let g := [Side.top, Side.right, Side.bottom, Side.left].foldl
    (fun g side => if src.hasWall side then copyWall g tX tY side else g) g
  let g := match src.prism with
    | some p => modifyCell g tX tY
        (fun c => c.setPrism { p with x := (tX : Int), y := (tY : Int) })
    | none => g
  match src.target with
  | some t => modifyCell g tX tY
      (fun c => c.setTarget { t with x := (tX : Int), y := (tY : Int) })
  | none => g

/-- Copy a rotated 8×8 grid into the big board at a quadrant offset. -/
def copyQuadrant (g : Grid) (offX offY : Nat) (rotated : Grid) : Grid :=
  smallIdx.foldl (fun g xy => copyCell offX offY (rotated xy.1 xy.2) xy.1 xy.2 g) g

/-- The per-quadrant iteration of `Board.placeSmallBoards()`; errors
model the source's throws (missing board or face, invalid gap corner). -/
def placeLoop (smallBoards : List SmallBoardData) (config : List BoardCfg) :
    List (Nat × Quadrant) → Grid → Except String Grid
  | [], g => .ok g
  | (idx, pos) :: rest, g =>
    match config[idx]? with
    | none => .error "Invalid config format"
    | some cfg =>
      match smallBoards[cfg.boardId]? with
      | none => .error ("Small board " ++ toString cfg.boardId ++ " not found")
      | some sb =>
        match calculateRotationForPosition sb pos with
        | none => .error "Invalid gap position"
        | some angle =>
          match getFace sb cfg.faceId with
          | none => .error ("Face " ++ toString cfg.faceId ++
              " not found in board " ++ toString sb.id)
          | some face =>
            let rotated := rotateCellsG face angle
            let off := quadrantOffset pos
            placeLoop smallBoards config rest (copyQuadrant g off.1 off.2 rotated)

/-- The quadrant order of `Board.placeSmallBoards()`. -/
def quadrantList : List (Nat × Quadrant) :=
  [(0, .topLeft), (1, .topRight), (2, .bottomLeft), (3, .bottomRight)]

/-- Method `Board.setCentralBlockedArea()`: all four walls set and
content cleared on the four dead-zone cells (columns 7–8, rows 7–8),
then the inward-facing wall on each side-adjacent outside cell (the
source's range guards `7 > 0` and `8 < 15` always hold and are dropped
here). -/
def setCentralBlockedArea (g : Grid) : Grid :=
  let g := [((7 : Nat), (7 : Nat)), (8, 7), (7, 8), (8, 8)].foldl
    (fun g xy => modifyCell g xy.1 xy.2 (fun c =>
      ((((c.setWall .top true).setWall .right true).setWall .bottom
        true).setWall .left true).clear)) g
  let g := modifyCell g 6 7 (fun c => c.setWall .right true)
  let g := modifyCell g 6 8 (fun c => c.setWall .right true)
  let g := modifyCell g 9 7 (fun c => c.setWall .left true)
  let g := modifyCell g 9 8 (fun c => c.setWall .left true)
  let g := modifyCell g 7 6 (fun c => c.setWall .bottom true)
  let g := modifyCell g 8 6 (fun c => c.setWall .bottom true)
  let g := modifyCell g 7 9 (fun c => c.setWall .top true)
  modifyCell g 8 9 (fun c => c.setWall .top true)

/-- Method `Board.collectTargets()`: all targets in row-major order. -/
def collectTargets (g : Grid) : List Target :=
  ((List.range 16).flatMap (fun y => (List.range 16).map (fun x => (x, y)))).foldl
    (fun acc xy =>
      match (g xy.1 xy.2).target with
      | some t => acc ++ [t]
      | none => acc) []

/-- The `Board` constructor / `init()` pipeline: empty cells with the
outer boundary, configuration validation, quadrant placement, dead-zone
sealing.  A successful construction yields the playing board. -/
def buildBoard (smallBoards : List SmallBoardData) (config : List BoardCfg) :
    Except String Board :=
  match validateConfig smallBoards config with
  | .error e => .error e
  | .ok _ =>
    match placeLoop smallBoards config quadrantList emptyBoardGrid with
    | .error e => .error e
    | .ok g => .ok ⟨setCentralBlockedArea g⟩

/-- Wall-adjacency symmetry of a 16×16 grid: every interior side-adjacent
pair of cells agrees on the wall between them. -/
def WallSym (g : Grid) : Prop :=
  (∀ x y : Nat, x + 1 < 16 → y < 16 →
    (g x y).hasWall .right = (g (x + 1) y).hasWall .left) ∧
  (∀ x y : Nat, x < 16 → y + 1 < 16 →
    (g x y).hasWall .bottom = (g x (y + 1)).hasWall .top)

/-- The source position that `rotateGridOnce` writes to a given target
position: the inverse rotation (rotating by the complementary angle). -/
def invSrc (a : Nat) (q : Nat × Nat) : Nat × Nat :=
  let p := rotatePoint (q.1 : Int) (q.2 : Int) ((360 - a) % 360) 8
  (p.1.toNat, p.2.toNat)

/-- Four authored modules with distinct colors and one empty face each,
used as concrete construction inputs. -/
def witMods : List SmallBoardData :=
  [⟨0, "red", (0, 0), [⟨0, [], [], []⟩]⟩,
   ⟨1, "yellow", (0, 0), [⟨0, [], [], []⟩]⟩,
   ⟨2, "blue", (0, 0), [⟨0, [], [], []⟩]⟩,
   ⟨3, "green", (0, 0), [⟨0, [], [], []⟩]⟩]

/-- A configuration selecting the four concrete modules in order. -/
def witCfg : List BoardCfg := [⟨0, 0⟩, ⟨1, 0⟩, ⟨2, 0⟩, ⟨3, 0⟩]

/-- The board assembled from the concrete modules (construction
succeeds; the fallback branch is unreachable). -/
def witBoard : Board :=
  match buildBoard witMods witCfg with
  | .ok b => b
  | .error _ => ⟨fun _ _ => Cell.new⟩

/-- Executable wall-symmetry check over the 16×16 grid. -/
def wallSymB (g : Grid) : Bool :=
  ((List.range 15).all fun x => (List.range 16).all fun y =>
    (g x y).hasWall .right == (g (x + 1) y).hasWall .left) &&
  ((List.range 16).all fun x => (List.range 15).all fun y =>
    (g x y).hasWall .bottom == (g x (y + 1)).hasWall .top)

/-- A concrete authored face with one wall, one prism and one target,
used as a rotation round-trip input. -/
def wFace : FaceData :=
  ⟨0, [⟨2, 2, [Side.top]⟩], [⟨3, 3, "\\", "yellow"⟩],
    [⟨1, 1, "circle", "red", "t1"⟩]⟩

/-! Section: movement characterization lemmas. -/

/-- The cell at (x, y) exists and holds a prism. -/
def hasPrismAt (b : Board) (x y : Int) : Prop :=
  (b.getCell x y).elim false Cell.hasPrism = true

instance (b : Board) (x y : Int) : Decidable (hasPrismAt b x y) := by
  unfold hasPrismAt; infer_instance

/-- (x, y) lies on the 16×16 board. -/
def inBoard (x y : Int) : Prop := 0 ≤ x ∧ x < 16 ∧ 0 ≤ y ∧ y < 16

instance (x y : Int) : Decidable (inBoard x y) := by
  unfold inBoard; infer_instance

/-- The exact blocking condition of one `moveInDirection` step from
(x, y): boundary, dead zone, wall on the current cell, or a robot entry
on the next cell whose position differs from the slide's start
`(startX, startY)`.  Note the last disjunct excludes occupants by
position, not identity. -/
def StepBlocked (b : Board) (allRobots : List RobotState) (d : Dir)
    (startX startY x y : Int) : Prop :=
  (x + (dirDelta d).1 < 0 ∨ 16 ≤ x + (dirDelta d).1 ∨
    y + (dirDelta d).2 < 0 ∨ 16 ≤ y + (dirDelta d).2) ∨
  isInCentralArea (x + (dirDelta d).1) (y + (dirDelta d).2) = true ∨
  hasWallInDirection (b.getCell x y) d = true ∨
  (allRobots.any (fun r =>
      r.x = x + (dirDelta d).1 ∧ r.y = y + (dirDelta d).2 ∧
      ¬(r.x = startX ∧ r.y = startY))) = true

instance (b : Board) (rs : List RobotState) (d : Dir) (sx sy x y : Int) :
    Decidable (StepBlocked b rs d sx sy x y) := by
  unfold StepBlocked; infer_instance

/-- A well-formed recorded segment: both endpoints on the board and a
strict displacement. -/
def goodSeg (s : Segment) : Prop :=
  inBoard s.fromX s.fromY ∧ inBoard s.toX s.toY ∧
  ¬(s.fromX = s.toX ∧ s.fromY = s.toY)

instance (s : Segment) : Decidable (goodSeg s) := by
  unfold goodSeg; infer_instance

/-- The four token colors of the game (`CONSTANTS.COLOR_ORDER`). -/
def fourColors : List String := ["red", "yellow", "blue", "green"]

/-- Well-formed initial joint state: pairwise-distinct token colors
drawn from the four game colors, all tokens on the board. -/
def Wf (robots0 : List RobotState) : Prop :=
  (robots0.map RobotState.color).Nodup ∧
  ∀ r ∈ robots0, r.color ∈ fourColors ∧ inBoard r.x r.y

instance (robots0 : List RobotState) : Decidable (Wf robots0) := by
  unfold Wf; infer_instance

/-- The class of joint states the search ranges over: same ordered color
list as the initial state, all tokens on the board. -/
def InC (robots0 s : List RobotState) : Prop :=
  s.map RobotState.color = robots0.map RobotState.color ∧
  ∀ r ∈ s, inBoard r.x r.y

/-- The state reached after a prefix of an action sequence (the full run
is assumed to succeed where this is used). -/
def stM (b : Board) (robots0 : List RobotState) (ms : List (Nat × Dir))
    (j : Nat) : List RobotState :=
  (runMoves b robots0 (ms.take j)).getD []

/-- Reachability at an exact depth with every prefix state (including
the last) off the goal. -/
def ReachOff (b : Board) (robots0 : List RobotState) (tc : String)
    (tx ty : Int) (ℓ : Nat) (s : List RobotState) : Prop :=
  ∃ ms : List (Nat × Dir), ms.length = ℓ ∧ runMoves b robots0 ms = some s ∧
    ∀ k, k ≤ ℓ → ((runMoves b robots0 (ms.take k)).elim false
      (fun r => !(targetOnGoal r tc tx ty))) = true

/-- The breadth-first queue always consists of a block of depth-d nodes
followed by a block of depth-(d+1) nodes. -/
def TwoBlocks (d : Nat) (q : List Node) : Prop :=
  ∃ q1 q2, q = q1 ++ q2 ∧ (∀ n ∈ q1, n.steps = d) ∧
    (∀ n ∈ q2, n.steps = d + 1)

/-- The path returned by the search on the two-wall board, from a red
token at the origin to the goal (5, 0). -/
def c3wPath : List PathStep :=
  match bfsSearch bMin [⟨"red", 0, 0⟩] "red" 5 0 with
  | .success _ pa _ => pa
  | _ => []

/-- Character-level tail of a bar-separated join. -/
def joinTail : List String → List Char
  | [] => []
  | a :: as => '|' :: a.data ++ joinTail as

/-- Character-level bar-separated join (the data of
`String.intercalate` with a bar separator). -/
def joinBar : List String → List Char
  | [] => []
  | a :: as => a.data ++ joinTail as

/-- `midLoop` walks a straight ray: there is a step count `k` such that
the result is the start displaced `k` cells, no step before the `k`-th
was blocked, no intermediate cell held a prism, and (unless the fuel ran
out) the walk ended on a blocked step or by arriving on a prism cell;
all visited cells are on the board. -/
theorem midLoop_spec (b : Board) (robots : List RobotState) (d : Dir)
    (sX sY : Int) : ∀ (fuel : Nat) (x y : Int) (m : Bool), ∃ k : Nat,
    midLoop b d robots sX sY fuel x y m =
      ⟨m || decide (k ≠ 0), x + (k : Int) * (dirDelta d).1,
        y + (k : Int) * (dirDelta d).2⟩ ∧
    k ≤ fuel ∧
    (∀ j : Nat, j < k → ¬ StepBlocked b robots d sX sY
        (x + (j : Int) * (dirDelta d).1) (y + (j : Int) * (dirDelta d).2)) ∧
    (∀ j : Nat, 0 < j → j < k → ¬ hasPrismAt b
        (x + (j : Int) * (dirDelta d).1) (y + (j : Int) * (dirDelta d).2)) ∧
    (k < fuel → StepBlocked b robots d sX sY
        (x + (k : Int) * (dirDelta d).1) (y + (k : Int) * (dirDelta d).2) ∨
      (0 < k ∧ hasPrismAt b (x + (k : Int) * (dirDelta d).1)
        (y + (k : Int) * (dirDelta d).2))) ∧
    (0 < k → inBoard x y ∧ ∀ j : Nat, j ≤ k →
        inBoard (x + (j : Int) * (dirDelta d).1)
          (y + (j : Int) * (dirDelta d).2)) := by
  intro fuel
  induction fuel with
  | zero =>
    intro x y m
    refine ⟨0, by simp [midLoop], le_refl 0, by omega, by omega, by omega,
      by omega⟩
  | succ fuel ih =>
    intro x y m
    by_cases hb : x + (dirDelta d).1 < 0 ∨ 16 ≤ x + (dirDelta d).1 ∨
        y + (dirDelta d).2 < 0 ∨ 16 ≤ y + (dirDelta d).2
    · refine ⟨0, ?_, by omega, by omega, by omega, ?_, by omega⟩
      · simp only [midLoop, if_pos hb]; simp
      · intro _
        left
        simp only [Nat.cast_zero, zero_mul, add_zero]
        exact Or.inl hb
    · by_cases hc : isInCentralArea (x + (dirDelta d).1) (y + (dirDelta d).2) = true
      · refine ⟨0, ?_, by omega, by omega, by omega, ?_, by omega⟩
        · simp only [midLoop, if_neg hb, if_pos hc]; simp
        · intro _
          left
          simp only [Nat.cast_zero, zero_mul, add_zero]
          exact Or.inr (Or.inl hc)
      · by_cases hw : hasWallInDirection (b.getCell x y) d = true
        · refine ⟨0, ?_, by omega, by omega, by omega, ?_, by omega⟩
          · simp only [midLoop, if_neg hb, if_neg hc, if_pos hw]; simp
          · intro _
            left
            simp only [Nat.cast_zero, zero_mul, add_zero]
            exact Or.inr (Or.inr (Or.inl hw))
        · by_cases hr : (robots.any (fun r =>
              r.x = x + (dirDelta d).1 ∧ r.y = y + (dirDelta d).2 ∧
              ¬(r.x = sX ∧ r.y = sY))) = true
          · refine ⟨0, ?_, by omega, by omega, by omega, ?_, by omega⟩
            · simp only [midLoop, if_neg hb, if_neg hc, if_neg hw, if_pos hr]
              simp
            · intro _
              left
              simp only [Nat.cast_zero, zero_mul, add_zero]
              exact Or.inr (Or.inr (Or.inr hr))
          · have hnsb : ¬ StepBlocked b robots d sX sY x y := by
              intro h
              rcases h with h | h | h | h
              exacts [hb h, hc h, hw h, hr h]
            have hcur : inBoard x y := by
              by_contra hxy
              have hnone : b.getCell x y = none := by
                unfold Board.getCell
                rw [if_pos]
                unfold inBoard at hxy
                omega
              simp [hasWallInDirection, hnone] at hw
            have hnext : inBoard (x + (dirDelta d).1) (y + (dirDelta d).2) := by
              unfold inBoard; omega
            by_cases hp : (b.getCell (x + (dirDelta d).1)
                (y + (dirDelta d).2)).elim false Cell.hasPrism = true
            · refine ⟨1, ?_, by omega, ?_, by omega, ?_, ?_⟩
              · simp only [midLoop, if_neg hb, if_neg hc, if_neg hw, if_neg hr,
                  if_pos hp]
                simp
              · intro j hj
                have hj0 : j = 0 := by omega
                subst hj0
                simpa using hnsb
              · intro _
                right
                refine ⟨Nat.one_pos, ?_⟩
                unfold hasPrismAt
                simpa using hp
              · intro _
                refine ⟨hcur, ?_⟩
                intro j hj
                match j, hj with
                | 0, _ => simpa using hcur
                | 1, _ => simpa using hnext
            · obtain ⟨k, hres, hk, hnb, hnp, hend, hib⟩ :=
                ih (x + (dirDelta d).1) (y + (dirDelta d).2) true
              refine ⟨k + 1, ?_, by omega, ?_, ?_, ?_, ?_⟩
              · simp only [midLoop, if_neg hb, if_neg hc, if_neg hw, if_neg hr,
                  if_neg hp]
                rw [hres]
                congr 1
                · simp
                · push_cast; ring
                · push_cast; ring
              · intro j hj
                rcases Nat.eq_zero_or_pos j with hj0 | hj0
                · subst hj0
                  simpa using hnsb
                · have hstep := hnb (j - 1) (by omega)
                  have hcast : ((j - 1 : Nat) : Int) = (j : Int) - 1 := by
                    omega
                  rw [hcast] at hstep
                  have e1 : x + (dirDelta d).1 + ((j : Int) - 1) * (dirDelta d).1
                      = x + (j : Int) * (dirDelta d).1 := by ring
                  have e2 : y + (dirDelta d).2 + ((j : Int) - 1) * (dirDelta d).2
                      = y + (j : Int) * (dirDelta d).2 := by ring
                  rw [e1, e2] at hstep
                  exact hstep
              · intro j hj0 hj
                rcases Nat.lt_or_ge j 2 with hj2 | hj2
                · have hj1 : j = 1 := by omega
                  subst hj1
                  simp only [Nat.cast_one, one_mul]
                  unfold hasPrismAt
                  simpa using hp
                · have hstep := hnp (j - 1) (by omega) (by omega)
                  have hcast : ((j - 1 : Nat) : Int) = (j : Int) - 1 := by
                    omega
                  rw [hcast] at hstep
                  have e1 : x + (dirDelta d).1 + ((j : Int) - 1) * (dirDelta d).1
                      = x + (j : Int) * (dirDelta d).1 := by ring
                  have e2 : y + (dirDelta d).2 + ((j : Int) - 1) * (dirDelta d).2
                      = y + (j : Int) * (dirDelta d).2 := by ring
                  rw [e1, e2] at hstep
                  exact hstep
              · intro hlt
                have e1 : x + (dirDelta d).1 + (k : Int) * (dirDelta d).1
                    = x + ((k + 1 : Nat) : Int) * (dirDelta d).1 := by
                  push_cast; ring
                have e2 : y + (dirDelta d).2 + (k : Int) * (dirDelta d).2
                    = y + ((k + 1 : Nat) : Int) * (dirDelta d).2 := by
                  push_cast; ring
                rcases hend (by omega) with h | ⟨hk0, h⟩
                · left
                  rw [e1, e2] at h
                  exact h
                · right
                  refine ⟨by omega, ?_⟩
                  rw [e1, e2] at h
                  exact h
              · intro _
                refine ⟨hcur, ?_⟩
                intro j hj
                rcases Nat.eq_zero_or_pos j with hj0 | hj0
                · subst hj0; simpa using hcur
                · rcases Nat.eq_zero_or_pos k with hk0 | hk0
                  · have hj1 : j = 1 := by omega
                    subst hj1
                    simpa using hnext
                  · have hstep := (hib hk0).2 (j - 1) (by omega)
                    have hcast : ((j - 1 : Nat) : Int) = (j : Int) - 1 := by
                      omega
                    rw [hcast] at hstep
                    have e1 : x + (dirDelta d).1 +
                        ((j : Int) - 1) * (dirDelta d).1
                        = x + (j : Int) * (dirDelta d).1 := by ring
                    have e2 : y + (dirDelta d).2 +
                        ((j : Int) - 1) * (dirDelta d).2
                        = y + (j : Int) * (dirDelta d).2 := by ring
                    rw [e1, e2] at hstep
                    exact hstep

/-- With a positive step count the walk stays on the board, which bounds
the step count by 15 in every direction. -/
theorem specK_le_15 (d : Dir) (x y : Int) (k : Nat)
    (hib : 0 < k → inBoard x y ∧ ∀ j : Nat, j ≤ k →
      inBoard (x + (j : Int) * (dirDelta d).1) (y + (j : Int) * (dirDelta d).2)) :
    k ≤ 15 := by
  rcases Nat.eq_zero_or_pos k with h | h
  · omega
  · obtain ⟨hxy, hall⟩ := hib h
    have hk := hall k le_rfl
    unfold inBoard at hxy hk
    cases d <;> simp [dirDelta] at hk <;> omega

/-- The inner movement loop is insensitive to fuel beyond 16: the source
`while (true)` loop always stops within the board diameter. -/
theorem midLoop_fuel_ge (b : Board) (robots : List RobotState) (d : Dir)
    (sX sY x y : Int) (m : Bool) (f : Nat) (hf : 16 ≤ f) :
    midLoop b d robots sX sY f x y m = midLoop b d robots sX sY 16 x y m := by
  obtain ⟨k1, hres1, _, hnb1, hnp1, hend1, hib1⟩ :=
    midLoop_spec b robots d sX sY f x y m
  obtain ⟨k2, hres2, _, hnb2, hnp2, hend2, hib2⟩ :=
    midLoop_spec b robots d sX sY 16 x y m
  have hk1 : k1 ≤ 15 := specK_le_15 d x y k1 hib1
  have hk2 : k2 ≤ 15 := specK_le_15 d x y k2 hib2
  have heq : k1 = k2 := by
    by_contra hne
    rcases Nat.lt_or_ge k1 k2 with hlt | hge
    · rcases hend1 (by omega) with hB | ⟨hpos, hP⟩
      · exact hnb2 k1 hlt hB
      · exact hnp2 k1 hpos hlt hP
    · have hlt : k2 < k1 := by omega
      rcases hend2 (by omega) with hB | ⟨hpos, hP⟩
      · exact hnb1 k2 hlt hB
      · exact hnp1 k2 hpos hlt hP
  rw [hres1, hres2, heq]

/-- Ray characterization of `moveInDirection`: the slide advances some
`k` ≤ 15 cells, every step before the last was unblocked, no
intermediate cell held a prism, and the slide ended on a blocked step or
by arriving on a prism cell. -/
theorem moveInDirection_spec (b : Board) (robots : List RobotState) (d : Dir)
    (sx sy : Int) : ∃ k : Nat, k ≤ 15 ∧
    moveInDirection b sx sy d robots =
      ⟨decide (k ≠ 0), sx + (k : Int) * (dirDelta d).1,
        sy + (k : Int) * (dirDelta d).2⟩ ∧
    (∀ j : Nat, j < k → ¬ StepBlocked b robots d sx sy
        (sx + (j : Int) * (dirDelta d).1) (sy + (j : Int) * (dirDelta d).2)) ∧
    (∀ j : Nat, 0 < j → j < k → ¬ hasPrismAt b
        (sx + (j : Int) * (dirDelta d).1) (sy + (j : Int) * (dirDelta d).2)) ∧
    (StepBlocked b robots d sx sy (sx + (k : Int) * (dirDelta d).1)
        (sy + (k : Int) * (dirDelta d).2) ∨
      (0 < k ∧ hasPrismAt b (sx + (k : Int) * (dirDelta d).1)
        (sy + (k : Int) * (dirDelta d).2))) ∧
    (0 < k → inBoard sx sy ∧ ∀ j : Nat, j ≤ k →
        inBoard (sx + (j : Int) * (dirDelta d).1)
          (sy + (j : Int) * (dirDelta d).2)) := by
  obtain ⟨k, hres, hk, hnb, hnp, hend, hib⟩ :=
    midLoop_spec b robots d sx sy 16 sx sy false
  have h15 := specK_le_15 d sx sy k hib
  refine ⟨k, h15, ?_, hnb, hnp, hend (by omega), hib⟩
  unfold moveInDirection
  rw [hres]
  simp

/-- A move with displacement lands on the board, away from its start,
and could only have begun on the board. -/
theorem moveInDirection_moved_facts (b : Board) (robots : List RobotState)
    (d : Dir) (sx sy : Int)
    (h : (moveInDirection b sx sy d robots).moved = true) :
    inBoard (moveInDirection b sx sy d robots).x
      (moveInDirection b sx sy d robots).y ∧
    ¬((moveInDirection b sx sy d robots).x = sx ∧
      (moveInDirection b sx sy d robots).y = sy) ∧
    inBoard sx sy := by
  obtain ⟨k, h15, hres, hnb, hnp, hend, hib⟩ := moveInDirection_spec b robots d sx sy
  rw [hres] at h ⊢
  simp only [decide_eq_true_eq] at h
  have hpos : 0 < k := Nat.pos_of_ne_zero h
  obtain ⟨hxy, hall⟩ := hib hpos
  refine ⟨by simpa using hall k le_rfl, ?_, hxy⟩
  intro hc
  obtain ⟨hx, hy⟩ := hc
  simp only at hx hy
  cases d <;> simp [dirDelta] at hx hy <;> omega

/-- The segment list grows by at most one entry per loop iteration. -/
theorem simLoop_len (b : Board) (robot : RobotState) (robots : List RobotState) :
    ∀ (fuel : Nat) (x y : Int) (dir : Dir) (segs : List Segment)
      (vis : List String),
    (simLoop b robot robots fuel x y dir segs vis).2.2.length ≤
      segs.length + fuel := by
  intro fuel
  induction fuel with
  | zero => intro x y dir segs vis; simp [simLoop]
  | succ fuel ih =>
    intro x y dir segs vis
    by_cases hm : (moveInDirection b x y dir robots).moved = true
    · rcases hcell : (b.getCell (moveInDirection b x y dir robots).x
          (moveInDirection b x y dir robots).y).bind Cell.prism with _ | p
      · simp [simLoop, hm, hcell]
      · by_cases hdir : p.refract dir robot.color = dir
        · simp [simLoop, hm, hcell, hdir]
        · by_cases hvis : simKey (moveInDirection b x y dir robots).x
              (moveInDirection b x y dir robots).y (p.refract dir robot.color) ∈ vis
          · simp [simLoop, hm, hcell, hdir, hvis]
          · have hrec := ih (moveInDirection b x y dir robots).x
              (moveInDirection b x y dir robots).y (p.refract dir robot.color)
              (segs ++ [⟨x, y, dir, (moveInDirection b x y dir robots).x,
                (moveInDirection b x y dir robots).y, dir⟩])
              (vis ++ [simKey (moveInDirection b x y dir robots).x
                (moveInDirection b x y dir robots).y (p.refract dir robot.color)])
            simp only [simLoop, hm, hcell, Bool.not_true, if_false, if_neg hdir]
            simp only [List.contains, List.elem_eq_mem]
            simp only [decide_eq_true_eq, if_neg hvis]
            simp only [List.length_append, List.length_cons, List.length_nil] at hrec
            simp
            omega
    · rw [Bool.not_eq_true] at hm
      simp [simLoop, hm]

/-- Every segment the loop records joins two distinct on-board cells,
and the running position stays on the board. -/
theorem simLoop_good (b : Board) (robot : RobotState) (robots : List RobotState) :
    ∀ (fuel : Nat) (x y : Int) (dir : Dir) (segs : List Segment)
      (vis : List String), inBoard x y → (∀ s ∈ segs, goodSeg s) →
    inBoard (simLoop b robot robots fuel x y dir segs vis).1
      (simLoop b robot robots fuel x y dir segs vis).2.1 ∧
    ∀ s ∈ (simLoop b robot robots fuel x y dir segs vis).2.2, goodSeg s := by
  intro fuel
  induction fuel with
  | zero =>
    intro x y dir segs vis hxy hsegs
    simpa [simLoop] using ⟨hxy, hsegs⟩
  | succ fuel ih =>
    intro x y dir segs vis hxy hsegs
    by_cases hm : (moveInDirection b x y dir robots).moved = true
    · obtain ⟨hib, hne, _⟩ := moveInDirection_moved_facts b robots dir x y hm
      have hgood : ∀ s ∈ segs ++ [(⟨x, y, dir, (moveInDirection b x y dir robots).x,
          (moveInDirection b x y dir robots).y, dir⟩ : Segment)], goodSeg s := by
        intro s hs
        rcases List.mem_append.mp hs with hs | hs
        · exact hsegs s hs
        · simp at hs
          subst hs
          exact ⟨hxy, hib, fun hc => hne ⟨hc.1.symm, hc.2.symm⟩⟩
      rcases hcell : (b.getCell (moveInDirection b x y dir robots).x
          (moveInDirection b x y dir robots).y).bind Cell.prism with _ | p
      · simp only [simLoop, hm, hcell, Bool.not_true, if_false]
        exact ⟨hib, hgood⟩
      · by_cases hdir : p.refract dir robot.color = dir
        · simp only [simLoop, hm, hcell, hdir, Bool.not_true, if_false, if_pos rfl]
          simp only [if_true]
          exact ⟨hib, hgood⟩
        · by_cases hvis : simKey (moveInDirection b x y dir robots).x
              (moveInDirection b x y dir robots).y (p.refract dir robot.color) ∈ vis
          · simp only [simLoop, hm, hcell, Bool.not_true, if_false, if_neg hdir]
            simp only [List.contains, List.elem_eq_mem]
            simp only [decide_eq_true_eq, if_pos hvis]
            exact ⟨hib, hgood⟩
          · have hrec := ih (moveInDirection b x y dir robots).x
              (moveInDirection b x y dir robots).y (p.refract dir robot.color)
              (segs ++ [⟨x, y, dir, (moveInDirection b x y dir robots).x,
                (moveInDirection b x y dir robots).y, dir⟩])
              (vis ++ [simKey (moveInDirection b x y dir robots).x
                (moveInDirection b x y dir robots).y (p.refract dir robot.color)])
              hib hgood
            simp only [simLoop, hm, hcell, Bool.not_true, if_false, if_neg hdir]
            simp only [List.contains, List.elem_eq_mem]
            simp only [decide_eq_true_eq, if_neg hvis]
            exact hrec
    · rw [Bool.not_eq_true] at hm
      simp only [simLoop, hm, Bool.not_false, if_true]
      exact ⟨hxy, hsegs⟩

/-! Section: claim theorems. -/

/-- C5: for every refractor and every incoming direction, refraction
returns the unchanged direction when the token's color equals the
refractor's color; otherwise the backslash orientation exchanges right
with down and left with up, and the slash orientation exchanges right
with up and left with down. -/
theorem c5_refraction_table (p : Prism) (c : String) :
    (∀ d : Dir, c = p.color → p.refract d c = d) ∧
    (c ≠ p.color → p.direction = "\\" →
      (p.refract .right c = .down ∧ p.refract .down c = .right ∧
       p.refract .left c = .up ∧ p.refract .up c = .left)) ∧
    (c ≠ p.color → p.direction = "/" →
      (p.refract .right c = .up ∧ p.refract .up c = .right ∧
       p.refract .left c = .down ∧ p.refract .down c = .left)) := by
  refine ⟨?_, ?_, ?_⟩
  · intro d h
    unfold Prism.refract
    rw [if_pos h]
  · intro hne hdir
    refine ⟨?_, ?_, ?_, ?_⟩ <;>
      simp [Prism.refract, Prism.calculateRefraction, hne, hdir]
  · intro hne hdir
    have hnb : p.direction ≠ "\\" := by
      rw [hdir]; decide
    refine ⟨?_, ?_, ?_, ?_⟩ <;>
      simp [Prism.refract, Prism.calculateRefraction, hne, hnb]

/-- Witness for C5 at a concrete yellow refractor. -/
theorem c5_refraction_table_witness :
    (Prism.mk 3 3 "\\" "yellow").refract .right "red" = .down ∧
    (Prism.mk 3 3 "\\" "yellow").refract .right "yellow" = .right ∧
    (Prism.mk 3 3 "/" "yellow").refract .right "red" = .up :=
  ⟨((c5_refraction_table ⟨3, 3, "\\", "yellow"⟩ "red").2.1 (by decide) rfl).1,
   (c5_refraction_table ⟨3, 3, "\\", "yellow"⟩ "yellow").1 .right rfl,
   ((c5_refraction_table ⟨3, 3, "/", "yellow"⟩ "red").2.2 (by decide) rfl).1⟩

/-- C1, counterexample: a yellow token sliding right into the yellow
refractor at (3, 3) stops exactly on the refractor cell (it does not
continue to the right wall at x = 15 as the claim's transparency would
require). -/
theorem c1_counterexample :
    simulateMove bPrism ⟨"yellow", 0, 3⟩ .right [⟨"yellow", 0, 3⟩] =
      ⟨true, 3, 3, [⟨0, 3, .right, 3, 3, .right⟩]⟩ ∧
    (bPrism.cells 3 3).prism = some ⟨3, 3, "\\", "yellow"⟩ := by
  exact ⟨rfl, rfl⟩

/-- C1, amended: when a slide segment ends on a refractor cell whose
color equals the token's color, the refractor leaves the direction
unchanged but the slide STOPS on that cell — the same-color refractor is
a stopping cell, not a transparent one; exactly one further segment
(ending on the refractor) is recorded. -/
theorem c1_same_color_stops (b : Board) (robot : RobotState)
    (robots : List RobotState) (fuel : Nat) (x y : Int) (dir : Dir)
    (segs : List Segment) (vis : List String) (p : Prism)
    (hm : (moveInDirection b x y dir robots).moved = true)
    (hp : (b.getCell (moveInDirection b x y dir robots).x
        (moveInDirection b x y dir robots).y).bind Cell.prism = some p)
    (hc : robot.color = p.color) :
    simLoop b robot robots (fuel + 1) x y dir segs vis =
      ((moveInDirection b x y dir robots).x,
       (moveInDirection b x y dir robots).y,
       segs ++ [⟨x, y, dir, (moveInDirection b x y dir robots).x,
         (moveInDirection b x y dir robots).y, dir⟩]) := by
  have href : p.refract dir robot.color = dir := by
    unfold Prism.refract
    rw [if_pos hc]
  simp [simLoop, hm, hp, href]

/-- Witness for C1's amended statement on the concrete yellow-refractor
board. -/
theorem c1_same_color_stops_witness :
    simLoop bPrism ⟨"yellow", 0, 3⟩ [⟨"yellow", 0, 3⟩] (99 + 1) 0 3 .right [] [] =
      ((moveInDirection bPrism 0 3 .right [⟨"yellow", 0, 3⟩]).x,
       (moveInDirection bPrism 0 3 .right [⟨"yellow", 0, 3⟩]).y,
       [] ++ [⟨0, 3, .right, (moveInDirection bPrism 0 3 .right [⟨"yellow", 0, 3⟩]).x,
         (moveInDirection bPrism 0 3 .right [⟨"yellow", 0, 3⟩]).y, .right⟩]) :=
  c1_same_color_stops bPrism ⟨"yellow", 0, 3⟩ [⟨"yellow", 0, 3⟩] 99 0 3 .right
    [] [] ⟨3, 3, "\\", "yellow"⟩ (by decide) (by decide) rfl

/-- C4, counterexample: on the three-refractor board the red token
sliding right from (1, 0) ends at (1, 1): the final upward step from
(1, 1) to (1, 0) is blocked by none of the claim's four conditions (in
particular no DIFFERENT token occupies (1, 0) — only the moving token's
own stale entry does), yet the token does not advance. -/
theorem c4_counterexample :
    simulateMove bGhost ⟨"red", 1, 0⟩ .right [⟨"red", 1, 0⟩] =
      ⟨true, 1, 1,
        [⟨1, 0, .right, 3, 0, .right⟩, ⟨3, 0, .down, 3, 3, .down⟩,
         ⟨3, 3, .left, 1, 3, .left⟩, ⟨1, 3, .up, 1, 1, .up⟩]⟩ ∧
    ¬ ClaimBlocked bGhost [⟨"red", 1, 0⟩] ⟨"red", 1, 0⟩ .up 1 1 := by
  constructor
  · rfl
  · decide

/-- C4, amended: each one-cell step of a slide segment is blocked
exactly by the board boundary, the dead zone, a wall on the current cell
facing the move, or a token entry on the next cell at a position
different from the SEGMENT'S START (`StepBlocked`); during refraction
chains the moving token's own original cell can therefore block.
Otherwise the step advances; the segment ends on a blocked step or by
arriving on a refractor cell.  The claim's concrete scenario ((0,0) and
(5,0), slide right, stop at (4,0)) holds. -/
theorem c4_step_blocking :
    (∀ (b : Board) (robots : List RobotState) (d : Dir) (sx sy : Int),
      ∃ k : Nat, k ≤ 15 ∧
      moveInDirection b sx sy d robots =
        ⟨decide (k ≠ 0), sx + (k : Int) * (dirDelta d).1,
          sy + (k : Int) * (dirDelta d).2⟩ ∧
      (∀ j : Nat, j < k → ¬ StepBlocked b robots d sx sy
          (sx + (j : Int) * (dirDelta d).1) (sy + (j : Int) * (dirDelta d).2)) ∧
      (∀ j : Nat, 0 < j → j < k → ¬ hasPrismAt b
          (sx + (j : Int) * (dirDelta d).1) (sy + (j : Int) * (dirDelta d).2)) ∧
      (StepBlocked b robots d sx sy (sx + (k : Int) * (dirDelta d).1)
          (sy + (k : Int) * (dirDelta d).2) ∨
        (0 < k ∧ hasPrismAt b (sx + (k : Int) * (dirDelta d).1)
          (sy + (k : Int) * (dirDelta d).2)))) ∧
    simulateMove bEmpty ⟨"red", 0, 0⟩ .right [⟨"red", 0, 0⟩, ⟨"blue", 5, 0⟩] =
      ⟨true, 4, 0, [⟨0, 0, .right, 4, 0, .right⟩]⟩ := by
  constructor
  · intro b robots d sx sy
    obtain ⟨k, h15, hres, hnb, hnp, hend, _⟩ := moveInDirection_spec b robots d sx sy
    exact ⟨k, h15, hres, hnb, hnp, hend⟩
  · rfl

/-- C10: the move simulation always returns a defined result — the
inner straight-line loop is fuel-insensitive beyond the board diameter
(so the unbounded source loop terminates), at most 100 loop iterations
(the undocumented `maxSteps` refraction cap) can record segments, and
for a token starting on the board every recorded segment strictly
advances between on-board cells. -/
theorem c10_termination (b : Board) (robot : RobotState) (dir : Dir)
    (robots : List RobotState) :
    (∀ (d : Dir) (sX sY x y : Int) (m : Bool) (f : Nat), 16 ≤ f →
      midLoop b d robots sX sY f x y m = midLoop b d robots sX sY 16 x y m) ∧
    (simulateMove b robot dir robots).segments.length ≤ 100 ∧
    (inBoard robot.x robot.y →
      inBoard (simulateMove b robot dir robots).finalX
        (simulateMove b robot dir robots).finalY ∧
      ∀ s ∈ (simulateMove b robot dir robots).segments, goodSeg s) := by
  refine ⟨fun d sX sY x y m f hf => midLoop_fuel_ge b robots d sX sY x y m f hf,
    ?_, ?_⟩
  · have h := simLoop_len b robot robots 100 robot.x robot.y dir [] []
    simpa [simulateMove] using h
  · intro hib
    have h := simLoop_good b robot robots 100 robot.x robot.y dir [] [] hib
      (by simp)
    simpa [simulateMove] using h

/-- Witness for C10 on the concrete refractor board. -/
theorem c10_termination_witness :
    midLoop bPrism .right [⟨"red", 0, 3⟩] 0 3 20 0 3 false =
      midLoop bPrism .right [⟨"red", 0, 3⟩] 0 3 16 0 3 false ∧
    (simulateMove bPrism ⟨"red", 0, 3⟩ .right [⟨"red", 0, 3⟩]).segments.length ≤ 100 ∧
    (inBoard (simulateMove bPrism ⟨"red", 0, 3⟩ .right [⟨"red", 0, 3⟩]).finalX
        (simulateMove bPrism ⟨"red", 0, 3⟩ .right [⟨"red", 0, 3⟩]).finalY ∧
      ∀ s ∈ (simulateMove bPrism ⟨"red", 0, 3⟩ .right [⟨"red", 0, 3⟩]).segments,
        goodSeg s) :=
  ⟨(c10_termination bPrism ⟨"red", 0, 3⟩ .right [⟨"red", 0, 3⟩]).1 .right 0 3 0 3
      false 20 (by decide),
   (c10_termination bPrism ⟨"red", 0, 3⟩ .right [⟨"red", 0, 3⟩]).2.1,
   (c10_termination bPrism ⟨"red", 0, 3⟩ .right [⟨"red", 0, 3⟩]).2.2 (by decide)⟩

/-- An index-respecting rewrite of one robot entry preserves the color
list. -/
theorem mapIdx_pres_color :
    ∀ (l : List RobotState) (f : Nat → RobotState → RobotState),
    (∀ i r, (f i r).color = r.color) →
    (l.mapIdx f).map RobotState.color = l.map RobotState.color := by
  intro l
  induction l with
  | nil => intro f h; simp
  | cons a l ih =>
    intro f h
    rw [List.mapIdx_cons]
    simp only [List.map_cons, h]
    rw [ih (fun i => f (i + 1)) (fun i r => h (i + 1) r)]

/-- A `found` expansion carries the dequeued node's step count plus one,
and that count is at least 2 (the guard discards a 1-step win). -/
theorem expandMoves_found_steps (b : Board) (tc : String) (tx ty : Int)
    (cur : Node) :
    ∀ (pairs : List (Nat × Dir)) (acc : List Node) (vis : List String)
      (st : Nat) (pa : List PathStep),
    expandMoves b tc tx ty cur pairs acc vis = .found st pa →
    st = cur.steps + 1 ∧ 2 ≤ st := by
  intro pairs
  induction pairs with
  | nil =>
    intro acc vis st pa h
    simp [expandMoves] at h
  | cons pr rest ih =>
    intro acc vis st pa h
    obtain ⟨i, d⟩ := pr
    simp only [expandMoves] at h
    split at h
    · cases h
    · split at h
      · exact ih _ _ _ _ h
      · split at h
        · cases h
        · split at h
          · split at h
            · exact ih _ _ _ _ h
            · rename_i hsteps
              injection h with h1 h2
              omega
          · split at h
            · exact ih _ _ _ _ h
            · exact ih _ _ _ _ h

/-- Every node the expansion appends keeps the dequeued state's color
list. -/
theorem expandMoves_cont_colors (b : Board) (tc : String) (tx ty : Int)
    (cur : Node) :
    ∀ (pairs : List (Nat × Dir)) (acc : List Node) (vis : List String)
      (accOut : List Node) (visOut : List String),
    expandMoves b tc tx ty cur pairs acc vis = .cont accOut visOut →
    ∀ nd ∈ accOut, nd ∈ acc ∨
      nd.robots.map RobotState.color = cur.robots.map RobotState.color := by
  intro pairs
  induction pairs with
  | nil =>
    intro acc vis accOut visOut h nd hnd
    simp only [expandMoves] at h
    injection h with h1 h2
    subst h1
    exact Or.inl hnd
  | cons pr rest ih =>
    intro acc vis accOut visOut h nd hnd
    obtain ⟨i, d⟩ := pr
    simp only [expandMoves] at h
    split at h
    · cases h
    · rename_i robot hrob
      split at h
      · exact ih _ _ _ _ h nd hnd
      · split at h
        · cases h
        · split at h
          · split at h
            · exact ih _ _ _ _ h nd hnd
            · cases h
          · split at h
            · exact ih _ _ _ _ h nd hnd
            · rcases ih _ _ _ _ h nd hnd with hin | hcol
              · rcases List.mem_append.mp hin with hin | hin
                · exact Or.inl hin
                · simp at hin
                  subst hin
                  right
                  exact mapIdx_pres_color cur.robots _ (by intro j r; by_cases hj : j = i <;> simp [hj])
              · exact Or.inr hcol

/-- The expansion cannot produce the modelled JavaScript crash when all
robot indices are in range and the target color is present. -/
theorem expandMoves_ne_crash (b : Board) (tc : String) (tx ty : Int)
    (cur : Node) :
    ∀ (pairs : List (Nat × Dir)) (acc : List Node) (vis : List String),
    (∀ pr ∈ pairs, pr.1 < cur.robots.length) →
    (∃ r ∈ cur.robots, r.color = tc) →
    expandMoves b tc tx ty cur pairs acc vis ≠ .crash := by
  intro pairs
  induction pairs with
  | nil =>
    intro acc vis _ _
    simp [expandMoves]
  | cons pr rest ih =>
    intro acc vis hidx hpres h
    obtain ⟨i, d⟩ := pr
    have hi : i < cur.robots.length := hidx (i, d) (List.mem_cons_self _ _)
    simp only [expandMoves, List.getElem?_eq_getElem hi] at h
    split at h
    · exact ih _ _ (fun pr hpr => hidx pr (List.mem_cons_of_mem _ hpr)) hpres h
    · have hfind : ((cur.robots.mapIdx fun idx r =>
          if idx = i then ⟨r.color, (simulateMove b cur.robots[i] d cur.robots).finalX,
            (simulateMove b cur.robots[i] d cur.robots).finalY⟩ else r).find?
          (fun r => r.color == tc)).isSome := by
        apply List.find?_isSome.mpr
        obtain ⟨r0, hr0, hcol⟩ := hpres
        have hcols := mapIdx_pres_color cur.robots
          (fun idx r => if idx = i then ⟨r.color,
            (simulateMove b cur.robots[i] d cur.robots).finalX,
            (simulateMove b cur.robots[i] d cur.robots).finalY⟩ else r)
          (by intro j r; by_cases hj : j = i <;> simp [hj])
        have : tc ∈ (cur.robots.mapIdx fun idx r =>
            if idx = i then ⟨r.color, (simulateMove b cur.robots[i] d cur.robots).finalX,
              (simulateMove b cur.robots[i] d cur.robots).finalY⟩ else r).map
            RobotState.color := by
          rw [hcols]
          exact List.mem_map.mpr ⟨r0, hr0, hcol⟩
        obtain ⟨r1, hr1, hcol1⟩ := List.mem_map.mp this
        exact ⟨r1, hr1, by simp [hcol1]⟩
      rcases hf : (cur.robots.mapIdx fun idx r =>
          if idx = i then ⟨r.color, (simulateMove b cur.robots[i] d cur.robots).finalX,
            (simulateMove b cur.robots[i] d cur.robots).finalY⟩ else r).find?
          (fun r => r.color == tc) with _ | movedRobot
      · rw [hf] at hfind
        simp at hfind
      · simp only [hf] at h
        split at h
        · split at h
          · exact ih _ _ (fun pr hpr => hidx pr (List.mem_cons_of_mem _ hpr)) hpres h
          · cases h
        · split at h
          · exact ih _ _ (fun pr hpr => hidx pr (List.mem_cons_of_mem _ hpr)) hpres h
          · exact ih _ _ (fun pr hpr => hidx pr (List.mem_cons_of_mem _ hpr)) hpres h

/-- Every pair produced by `movePairs n` has its index below `n`. -/
theorem movePairs_lt (n : Nat) : ∀ pr ∈ movePairs n, pr.1 < n := by
  intro pr hpr
  unfold movePairs at hpr
  obtain ⟨i, hi, hmem⟩ := List.mem_flatMap.mp hpr
  obtain ⟨d, _, hd⟩ := List.mem_map.mp hmem
  subst hd
  simpa using List.mem_range.mp hi

/-- A successful search result always reports at least two actions. -/
theorem bfsLoop_success_ge2 (b : Board) (tc : String) (tx ty : Int) :
    ∀ (fuel : Nat) (q : List Node) (vis : List String) (se st : Nat)
      (pa : List PathStep) (se' : Nat),
    bfsLoop b tc tx ty fuel q vis se = .success st pa se' → 2 ≤ st := by
  intro fuel
  induction fuel with
  | zero =>
    intro q vis se st pa se' h
    cases q <;> simp [bfsLoop] at h
  | succ fuel ih =>
    intro q vis se st pa se' h
    cases q with
    | nil => simp [bfsLoop] at h
    | cons cur rest =>
      simp only [bfsLoop] at h
      split at h
      · cases h
      · split at h
        · rename_i st0 pa0 hexp
          injection h with h1 h2 h3
          subst h1
          exact (expandMoves_found_steps b tc tx ty cur _ _ _ _ _ hexp).2
        · cases h
        · exact ih _ _ _ _ _ _ h

/-- The search loop never reaches the modelled crash as long as every
queued state carries the target color. -/
theorem bfsLoop_ne_crash (b : Board) (tc : String) (tx ty : Int) :
    ∀ (fuel : Nat) (q : List Node) (vis : List String) (se : Nat),
    (∀ n ∈ q, ∃ r ∈ n.robots, r.color = tc) →
    bfsLoop b tc tx ty fuel q vis se ≠ .jsCrash := by
  intro fuel
  induction fuel with
  | zero =>
    intro q vis se _
    cases q <;> simp [bfsLoop]
  | succ fuel ih =>
    intro q vis se hq h
    cases q with
    | nil => simp [bfsLoop] at h
    | cons cur rest =>
      simp only [bfsLoop] at h
      split at h
      · cases h
      · split at h
        · cases h
        · rename_i hexp
          exact expandMoves_ne_crash b tc tx ty cur _ _ _
            (movePairs_lt cur.robots.length)
            (hq cur (List.mem_cons_self _ _)) hexp
        · rename_i newNodes vis' hexp
          refine ih _ _ _ ?_ h
          intro n hn
          rcases List.mem_append.mp hn with hn | hn
          · exact hq n (List.mem_cons_of_mem _ hn)
          · rcases expandMoves_cont_colors b tc tx ty cur _ _ _ _ _ hexp n
                hn with hin | hcol
            · cases hin
            · obtain ⟨r0, hr0, hcol0⟩ := hq cur (List.mem_cons_self _ _)
              have : tc ∈ n.robots.map RobotState.color := by
                rw [hcol]
                exact List.mem_map.mpr ⟨r0, hr0, hcol0⟩
              obtain ⟨r1, hr1, hc1⟩ := List.mem_map.mp this
              exact ⟨r1, hr1, hc1⟩

/-- The search as a whole never crashes when the target color is
present among the tokens. -/
theorem bfsSearch_ne_crash (b : Board) (robots : List RobotState)
    (tc : String) (tx ty : Int) (hpres : ∃ r ∈ robots, r.color = tc) :
    bfsSearch b robots tc tx ty ≠ .jsCrash := by
  unfold bfsSearch
  apply bfsLoop_ne_crash
  intro n hn
  simp at hn
  subst hn
  exact hpres

/-- C2: a transition after which the target-colored token sits exactly
on the requested goal cell is accepted as a solution only when the new
action count is at least 2; when the count would be 1 the transition is
discarded — neither returned nor enqueued — and the expansion continues
with the remaining transitions.  Globally, every successful search
reports at least 2 actions. -/
theorem c2_min_action_rule (b : Board) (tc : String) (tx ty : Int)
    (cur : Node) (i : Nat) (d : Dir) (rest : List (Nat × Dir))
    (acc : List Node) (vis : List String) (robot : RobotState)
    (movedRobot : RobotState)
    (hrob : cur.robots[i]? = some robot)
    (hm : (simulateMove b robot d cur.robots).moved = true)
    (hfind : (cur.robots.mapIdx (fun idx r =>
        if idx = i then ⟨r.color, (simulateMove b robot d cur.robots).finalX,
          (simulateMove b robot d cur.robots).finalY⟩ else r)).find?
        (fun r => r.color == tc) = some movedRobot)
    (hgoal : movedRobot.x = tx ∧ movedRobot.y = ty) :
    (cur.steps = 0 →
      expandMoves b tc tx ty cur ((i, d) :: rest) acc vis =
        expandMoves b tc tx ty cur rest acc vis) ∧
    (1 ≤ cur.steps →
      expandMoves b tc tx ty cur ((i, d) :: rest) acc vis =
        .found (cur.steps + 1) (cur.path ++ [⟨robot.color, d, robot.x, robot.y,
          (simulateMove b robot d cur.robots).finalX,
          (simulateMove b robot d cur.robots).finalY,
          (simulateMove b robot d cur.robots).segments⟩])) ∧
    (∀ (robots : List RobotState) (st : Nat) (pa : List PathStep) (se : Nat),
      bfsSearch b robots tc tx ty = .success st pa se → 2 ≤ st) := by
  refine ⟨?_, ?_, ?_⟩
  · intro hsteps
    simp only [expandMoves, hrob, hm, hfind, Bool.not_true, if_false,
      if_pos hgoal]
    rw [if_pos (show cur.steps + 1 < 2 by omega)]
    simp
  · intro hsteps
    simp only [expandMoves, hrob, hm, hfind, Bool.not_true, if_false,
      if_pos hgoal]
    rw [if_neg (show ¬(cur.steps + 1 < 2) by omega)]
    simp
  · intro robots st pa se h
    unfold bfsSearch at h
    exact bfsLoop_success_ge2 b tc tx ty _ _ _ _ _ _ _ h

/-- Witness for C2 on the walled board: from the initial state the red
token's one-slide arrival on the goal (5, 0) is discarded and the
expansion just moves on. -/
theorem c2_min_action_rule_witness :
    expandMoves bMin "red" 5 0 ⟨[⟨"red", 0, 0⟩], [], 0⟩ [((0 : Nat), Dir.right)]
        [] [stateToString [⟨"red", 0, 0⟩]] =
      expandMoves bMin "red" 5 0 ⟨[⟨"red", 0, 0⟩], [], 0⟩ [] []
        [stateToString [⟨"red", 0, 0⟩]] :=
  (c2_min_action_rule bMin "red" 5 0 ⟨[⟨"red", 0, 0⟩], [], 0⟩ 0 .right [] []
    [stateToString [⟨"red", 0, 0⟩]] ⟨"red", 0, 0⟩ ⟨"red", 5, 0⟩ rfl rfl rfl
    ⟨rfl, rfl⟩).1 rfl

/-- C8, counterexample: an unknown target token yields a structured
failure WITHOUT the statesExplored / elapsed-time diagnostics the claim
promises on every failure. -/
theorem c8_counterexample :
    findPath bEmpty [] "red" 0 0 = .notFound "Robot red not found" ∧
    hasDiagnostics (findPath bEmpty [] "red" 0 0) = false :=
  ⟨rfl, rfl⟩

/-- C8, amended: every `findPath` call returns a structured result and
never the modelled JavaScript crash; unknown target token, invalid goal
cell, search exhaustion and no-path each yield their distinct reason;
a target already on the goal is an immediate zero-action success; but
the two pre-search validation failures carry NO statesExplored /
elapsed-time diagnostics — only the search-phase outcomes do. -/
theorem c8_structured_results (b : Board) (robots : List RobotState)
    (color : String) (tx ty : Int) :
    findPath b robots color tx ty ≠ .crash ∧
    (robots.find? (fun r => r.color == color) = none →
      findPath b robots color tx ty =
        .notFound ("Robot " ++ color ++ " not found")) ∧
    (∀ tr, robots.find? (fun r => r.color == color) = some tr →
      isValidPosition tx ty = false →
      findPath b robots color tx ty =
        .invalidTarget "Target position is invalid") ∧
    (∀ tr, robots.find? (fun r => r.color == color) = some tr →
      isValidPosition tx ty = true → tr.x = tx ∧ tr.y = ty →
      findPath b robots color tx ty = .success 0 [] 0) ∧
    (∀ msg, (findPath b robots color tx ty = .notFound msg ∨
        findPath b robots color tx ty = .invalidTarget msg) →
      hasDiagnostics (findPath b robots color tx ty) = false) ∧
    (∀ se, (findPath b robots color tx ty = .tooLarge se ∨
        findPath b robots color tx ty = .noPath se) →
      hasDiagnostics (findPath b robots color tx ty) = true) := by
  refine ⟨?_, ?_, ?_, ?_, ?_, ?_⟩
  · unfold findPath
    rcases hf : robots.find? (fun r => r.color == color) with _ | tr
    · simp [hf]
    · have hpres : ∃ r ∈ robots, r.color = tr.color :=
        ⟨tr, List.mem_of_find?_eq_some hf, rfl⟩
      have hnc := bfsSearch_ne_crash b robots tr.color tx ty hpres
      simp only [hf]
      by_cases hv : isValidPosition tx ty
      · by_cases hgoal : tr.x = tx ∧ tr.y = ty
        · simp [hv, hgoal]
        · simp only [hv, Bool.not_true, Bool.not_false, if_false, if_neg hgoal]
          cases hbfs : bfsSearch b robots tr.color tx ty with
          | success st pa se => simp
          | tooLarge se => simp
          | noPath se => simp
          | jsCrash => exact absurd hbfs hnc
      · have hv2 : isValidPosition tx ty = false := by
          rcases Bool.eq_false_or_eq_true (isValidPosition tx ty) with h2 | h2
          · exact absurd h2 hv
          · exact h2
        simp [hv2]
  · intro hf
    unfold findPath
    rw [hf]
  · intro tr hf hv
    unfold findPath
    rw [hf, hv]
    rfl
  · intro tr hf hv hgoal
    unfold findPath
    rw [hf, hv]
    simp [hgoal]
  · intro msg h
    rcases h with h | h <;> rw [h] <;> rfl
  · intro se h
    rcases h with h | h <;> rw [h] <;> rfl

/-- Witness for C8's amended statement at concrete inputs: an invalid
goal cell (inside the dead zone) and a trivial zero-action success. -/
theorem c8_structured_results_witness :
    findPath bEmpty [⟨"red", 0, 0⟩] "red" 7 7 =
      .invalidTarget "Target position is invalid" ∧
    findPath bEmpty [⟨"red", 2, 2⟩] "red" 2 2 = .success 0 [] 0 :=
  ⟨(c8_structured_results bEmpty [⟨"red", 0, 0⟩] "red" 7 7).2.2.1
      ⟨"red", 0, 0⟩ rfl rfl,
   (c8_structured_results bEmpty [⟨"red", 2, 2⟩] "red" 2 2).2.2.2.1
      ⟨"red", 2, 2⟩ rfl rfl ⟨rfl, rfl⟩⟩

/-- C6: in every successfully constructed board, each of the four
central dead-zone cells (columns 7–8, rows 7–8) has all four wall flags
set and holds no refractor and no goal, and each side-adjacent cell
immediately outside the dead zone has its inward-facing wall flag set —
regardless of module catalogue and quadrant configuration. -/
theorem c6_dead_zone_sealed (smallBoards : List SmallBoardData)
    (config : List BoardCfg) (b : Board)
    (h : buildBoard smallBoards config = .ok b) :
    (∀ x y : Nat, (x = 7 ∨ x = 8) → (y = 7 ∨ y = 8) →
      (b.cells x y).hasWall .top = true ∧
      (b.cells x y).hasWall .right = true ∧
      (b.cells x y).hasWall .bottom = true ∧
      (b.cells x y).hasWall .left = true ∧
      (b.cells x y).prism = none ∧ (b.cells x y).target = none) ∧
    (∀ y : Nat, (y = 7 ∨ y = 8) →
      (b.cells 6 y).hasWall .right = true ∧
      (b.cells 9 y).hasWall .left = true) ∧
    (∀ x : Nat, (x = 7 ∨ x = 8) →
      (b.cells x 6).hasWall .bottom = true ∧
      (b.cells x 9).hasWall .top = true) := by
  unfold buildBoard at h
  split at h
  · cases h
  · split at h
    · cases h
    · rename_i g hplace
      injection h with h
      subst h
      refine ⟨?_, ?_, ?_⟩
      · intro x y hx hy
        rcases hx with hx | hx <;> rcases hy with hy | hy <;> subst hx <;>
          subst hy <;>
          simp [setCentralBlockedArea, modifyCell, Cell.setWall, Walls.set,
            Cell.clear, Cell.hasWall, Walls.get]
      · intro y hy
        rcases hy with hy | hy <;> subst hy <;>
          simp [setCentralBlockedArea, modifyCell, Cell.setWall, Walls.set,
            Cell.clear, Cell.hasWall, Walls.get]
      · intro x hx
        rcases hx with hx | hx <;> subst hx <;>
          simp [setCentralBlockedArea, modifyCell, Cell.setWall, Walls.set,
            Cell.clear, Cell.hasWall, Walls.get]

/-- Witness for C6 on the board assembled from four concrete modules. -/
theorem c6_dead_zone_sealed_witness :
    ((witBoard.cells 7 7).hasWall .top = true ∧
     (witBoard.cells 7 7).hasWall .right = true ∧
     (witBoard.cells 7 7).hasWall .bottom = true ∧
     (witBoard.cells 7 7).hasWall .left = true ∧
     (witBoard.cells 7 7).prism = none ∧ (witBoard.cells 7 7).target = none) ∧
    (witBoard.cells 6 8).hasWall .right = true ∧
    (witBoard.cells 8 9).hasWall .top = true := by
  have h : buildBoard witMods witCfg = .ok witBoard := rfl
  have hthm := c6_dead_zone_sealed witMods witCfg witBoard h
  exact ⟨hthm.1 7 7 (Or.inl rfl) (Or.inl rfl),
    (hthm.2.1 8 (Or.inr rfl)).1, (hthm.2.2 8 (Or.inr rfl)).2⟩

/-- Reading a wall flag after setting another flag: only the written
side changes. -/
theorem setWall_hasWall (c : Cell) (s s' : Side) (v : Bool) :
    (c.setWall s' v).hasWall s = if s = s' then v else c.hasWall s := by
  cases s <;> cases s' <;>
    simp [Cell.setWall, Walls.set, Cell.hasWall, Walls.get]

/-- Lookup through a single-cell modification. -/
theorem modifyCell_lookup (g : Grid) (px py : Nat) (f : Cell → Cell)
    (x y : Nat) :
    (modifyCell g px py f) x y = if x = px ∧ y = py then f (g x y) else g x y :=
  rfl

/-- The executable check implies the symmetry property. -/
theorem wallSym_of_wallSymB (g : Grid) (h : wallSymB g = true) : WallSym g := by
  unfold wallSymB at h
  rw [Bool.and_eq_true] at h
  obtain ⟨h1, h2⟩ := h
  constructor
  · intro x y hx hy
    have hx2 := List.all_eq_true.mp h1 x (List.mem_range.mpr (by omega))
    have hy2 := List.all_eq_true.mp hx2 y (List.mem_range.mpr (by omega))
    exact beq_iff_eq.mp hy2
  · intro x y hx hy
    have hx2 := List.all_eq_true.mp h2 x (List.mem_range.mpr (by omega))
    have hy2 := List.all_eq_true.mp hx2 y (List.mem_range.mpr (by omega))
    exact beq_iff_eq.mp hy2

/-- The freshly allocated board with outer boundary walls is
wall-symmetric (all its walls face off the board). -/
theorem wallSym_empty : WallSym emptyBoardGrid :=
  wallSym_of_wallSymB emptyBoardGrid (by decide)

/-- A transformation that changes no wall flag preserves wall
symmetry. -/
theorem wallSym_of_hasWall_eq (g g' : Grid)
    (h : ∀ x y s, (g' x y).hasWall s = (g x y).hasWall s)
    (hs : WallSym g) : WallSym g' := by
  constructor
  · intro x y hx hy
    rw [h, h]
    exact hs.1 x y hx hy
  · intro x y hx hy
    rw [h, h]
    exact hs.2 x y hx hy

/-- Writes to two different cells commute. -/
theorem modifyCell_comm (g : Grid) (px py qx qy : Nat)
    (f h : Cell → Cell) (hne : ¬(px = qx ∧ py = qy)) :
    modifyCell (modifyCell g px py f) qx qy h =
      modifyCell (modifyCell g qx qy h) px py f := by
  have hne2 : ¬(qx = px ∧ qy = py) := fun hc => hne ⟨hc.1.symm, hc.2.symm⟩
  funext x y
  simp only [modifyCell]
  by_cases h1 : x = px ∧ y = py <;> by_cases h2 : x = qx ∧ y = qy <;>
    simp [h1, h2, hne, hne2]

/-- Setting the two flags of one vertical wall (top of (tX, tY) and
bottom of (tX, tY−1)) preserves wall symmetry. -/
theorem wallSym_vpair (g : Grid) (tX tY : Nat) (hTY : 1 ≤ tY)
    (hs : WallSym g) :
    WallSym (modifyCell (modifyCell g tX tY (fun c => c.setWall .top true))
      tX (tY - 1) (fun c => c.setWall .bottom true)) := by
  constructor
  · intro x y hx hy
    simp only [modifyCell_lookup]
    split_ifs <;> (try simp [setWall_hasWall]) <;> exact hs.1 x y hx hy
  · intro x y hx hy
    simp only [modifyCell_lookup]
    by_cases hm : x = tX ∧ y + 1 = tY
    · rw [if_pos (show x = tX ∧ y = tY - 1 from ⟨hm.1, by omega⟩)]
      rw [if_neg (show ¬(x = tX ∧ y + 1 = tY - 1) from fun hc => by omega)]
      rw [if_pos (show x = tX ∧ y + 1 = tY from hm)]
      simp [setWall_hasWall]
    · have h1 : ¬(x = tX ∧ y = tY - 1) := fun hc => hm ⟨hc.1, by omega⟩
      rw [if_neg h1]
      have hL : (if x = tX ∧ y = tY then (g x y).setWall .top true
          else g x y).hasWall .bottom = (g x y).hasWall .bottom := by
        split_ifs <;> simp [setWall_hasWall]
      rw [hL]
      by_cases h2 : x = tX ∧ y + 1 = tY - 1
      · rw [if_pos h2, if_neg hm]
        simp only [setWall_hasWall]
        rw [if_neg (show ¬(Side.top = Side.bottom) from by decide)]
        exact hs.2 x y hx hy
      · rw [if_neg h2, if_neg hm]
        exact hs.2 x y hx hy

/-- Setting the two flags of one horizontal wall (left of (tX, tY) and
right of (tX−1, tY)) preserves wall symmetry. -/
theorem wallSym_hpair (g : Grid) (tX tY : Nat) (hTX : 1 ≤ tX)
    (hs : WallSym g) :
    WallSym (modifyCell (modifyCell g tX tY (fun c => c.setWall .left true))
      (tX - 1) tY (fun c => c.setWall .right true)) := by
  constructor
  · intro x y hx hy
    simp only [modifyCell_lookup]
    by_cases hm : x + 1 = tX ∧ y = tY
    · rw [if_pos (show x = tX - 1 ∧ y = tY from ⟨by omega, hm.2⟩)]
      rw [if_neg (show ¬(x + 1 = tX - 1 ∧ y = tY) from fun hc => by omega)]
      rw [if_pos (show x + 1 = tX ∧ y = tY from hm)]
      simp [setWall_hasWall]
    · have h1 : ¬(x = tX - 1 ∧ y = tY) := fun hc => hm ⟨by omega, hc.2⟩
      rw [if_neg h1]
      have hL : (if x = tX ∧ y = tY then (g x y).setWall .left true
          else g x y).hasWall .right = (g x y).hasWall .right := by
        split_ifs <;> simp [setWall_hasWall]
      rw [hL]
      by_cases h2 : x + 1 = tX - 1 ∧ y = tY
      · rw [if_pos h2, if_neg hm]
        simp only [setWall_hasWall]
        rw [if_neg (show ¬(Side.left = Side.right) from by decide)]
        exact hs.1 x y hx hy
      · rw [if_neg h2, if_neg hm]
        exact hs.1 x y hx hy
  · intro x y hx hy
    simp only [modifyCell_lookup]
    split_ifs <;> (try simp [setWall_hasWall]) <;> exact hs.2 x y hx hy

/-- Copying one wall during assembly preserves wall symmetry. -/
theorem copyWall_sym (g : Grid) (tX tY : Nat) (side : Side)
    (hX : tX < 16) (hY : tY < 16) (hs : WallSym g) :
    WallSym (copyWall g tX tY side) := by
  unfold copyWall
  cases side
  case top =>
    by_cases hty : tY = 0
    · rw [if_pos (Or.inl ⟨rfl, hty⟩)]
      exact hs
    · rw [if_neg (by simp [hty])]
      simp only [oppositeInfo]
      split
      · have e1 : ((tX : Int) + 0).toNat = tX := by omega
        have e2 : ((tY : Int) + (-1)).toNat = tY - 1 := by omega
        rw [e1, e2]
        exact wallSym_vpair g tX tY (by omega) hs
      · rename_i hcond
        exfalso
        push_neg at hcond
        omega
  case bottom =>
    by_cases hty : tY = 15
    · rw [if_pos (Or.inr (Or.inl ⟨rfl, hty⟩))]
      exact hs
    · rw [if_neg (by simp [hty])]
      simp only [oppositeInfo]
      split
      · have e1 : ((tX : Int) + 0).toNat = tX := by omega
        have e2 : ((tY : Int) + 1).toNat = tY + 1 := by omega
        rw [e1, e2]
        rw [modifyCell_comm g tX tY tX (tY + 1)
          (fun c => c.setWall Side.bottom true)
          (fun c => c.setWall Side.top true) (by intro hc; omega)]
        exact wallSym_vpair g tX (tY + 1) (by omega) hs
      · rename_i hcond
        exfalso
        push_neg at hcond
        omega
  case left =>
    by_cases htx : tX = 0
    · rw [if_pos (Or.inr (Or.inr (Or.inl ⟨rfl, htx⟩)))]
      exact hs
    · rw [if_neg (by simp [htx])]
      simp only [oppositeInfo]
      split
      · have e1 : ((tX : Int) + (-1)).toNat = tX - 1 := by omega
        have e2 : ((tY : Int) + 0).toNat = tY := by omega
        rw [e1, e2]
        exact wallSym_hpair g tX tY (by omega) hs
      · rename_i hcond
        exfalso
        push_neg at hcond
        omega
  case right =>
    by_cases htx : tX = 15
    · rw [if_pos (Or.inr (Or.inr (Or.inr ⟨rfl, htx⟩)))]
      exact hs
    · rw [if_neg (by simp [htx])]
      simp only [oppositeInfo]
      split
      · have e1 : ((tX : Int) + 1).toNat = tX + 1 := by omega
        have e2 : ((tY : Int) + 0).toNat = tY := by omega
        rw [e1, e2]
        rw [modifyCell_comm g tX tY (tX + 1) tY
          (fun c => c.setWall Side.right true)
          (fun c => c.setWall Side.left true) (by intro hc; omega)]
        exact wallSym_hpair g (tX + 1) tY (by omega) hs
      · rename_i hcond
        exfalso
        push_neg at hcond
        omega

/-- Folding a symmetry-preserving step over a list preserves wall
symmetry; the step may use membership of its argument in the list. -/
theorem wallSym_foldl_mem {α : Type} (step : Grid → α → Grid) :
    ∀ (l : List α), (∀ g a, a ∈ l → WallSym g → WallSym (step g a)) →
    ∀ g, WallSym g → WallSym (l.foldl step g) := by
  intro l
  induction l with
  | nil => intro _ g hg; exact hg
  | cons a t ih =>
    intro hstep g hg
    exact ih (fun g b hb => hstep g b (List.mem_cons_of_mem a hb)) _
      (hstep g a (List.mem_cons_self a t) hg)

/-- A single-cell modification that keeps the walls record preserves
wall symmetry. -/
theorem wallSym_modify_content (g : Grid) (px py : Nat) (f : Cell → Cell)
    (hf : ∀ c, (f c).walls = c.walls) (hs : WallSym g) :
    WallSym (modifyCell g px py f) := by
  refine wallSym_of_hasWall_eq g _ (fun x y s => ?_) hs
  simp only [modifyCell_lookup]
  split_ifs with h
  · simp [Cell.hasWall, hf]
  · rfl

/-- Copying one source cell onto the big board preserves wall
symmetry. -/
theorem wallSym_copyCell (offX offY : Nat) (src : Cell) (x y : Nat)
    (g : Grid) (hX : offX + x < 16) (hY : offY + y < 16) (hs : WallSym g) :
    WallSym (copyCell offX offY src x y g) := by
  simp only [copyCell]
  have h1 : WallSym ([Side.top, Side.right, Side.bottom, Side.left].foldl
      (fun g side => if src.hasWall side then copyWall g (offX + x) (offY + y)
        side else g) g) := by
    refine wallSym_foldl_mem _ _ (fun g side _ hg => ?_) g hs
    split_ifs with h
    · exact copyWall_sym g (offX + x) (offY + y) side hX hY hg
    · exact hg
  rcases hp : src.prism with _ | pz <;> rcases ht : src.target with _ | tg <;>
      simp only [hp, ht]
  · exact h1
  · exact wallSym_modify_content _ _ _ _ (fun c => rfl) h1
  · exact wallSym_modify_content _ _ _ _ (fun c => rfl) h1
  · exact wallSym_modify_content _ _ _ _ (fun c => rfl)
      (wallSym_modify_content _ _ _ _ (fun c => rfl) h1)

/-- Every index pair of the 8×8 iteration list is in range. -/
theorem smallIdx_bound : ∀ xy ∈ smallIdx, xy.1 < 8 ∧ xy.2 < 8 := by decide

/-- Copying a rotated quadrant onto the big board preserves wall
symmetry. -/
theorem wallSym_copyQuadrant (g : Grid) (offX offY : Nat) (rotated : Grid)
    (hoX : offX ≤ 8) (hoY : offY ≤ 8) (hs : WallSym g) :
    WallSym (copyQuadrant g offX offY rotated) := by
  unfold copyQuadrant
  refine wallSym_foldl_mem _ _ (fun g xy hmem hg => ?_) g hs
  have hb := smallIdx_bound xy hmem
  exact wallSym_copyCell offX offY (rotated xy.1 xy.2) xy.1 xy.2 g
    (by omega) (by omega) hg

/-- The quadrant placement loop preserves wall symmetry. -/
theorem wallSym_placeLoop (smallBoards : List SmallBoardData)
    (config : List BoardCfg) :
    ∀ (l : List (Nat × Quadrant)) (g : Grid) (b : Grid), WallSym g →
      placeLoop smallBoards config l g = .ok b → WallSym b := by
  intro l
  induction l with
  | nil =>
    intro g b hg h
    simp only [placeLoop] at h
    injection h with h2
    subst h2
    exact hg
  | cons p rest ih =>
    intro g b hg h
    obtain ⟨idx, pos⟩ := p
    simp only [placeLoop] at h
    rcases hc : config[idx]? with _ | cfg
    · simp only [hc] at h
      exact Except.noConfusion h
    · simp only [hc] at h
      rcases hsb : smallBoards[cfg.boardId]? with _ | sb
      · simp only [hsb] at h
        exact Except.noConfusion h
      · simp only [hsb] at h
        rcases hra : calculateRotationForPosition sb pos with _ | angle
        · simp only [hra] at h
          exact Except.noConfusion h
        · simp only [hra] at h
          rcases hgf : getFace sb cfg.faceId with _ | face
          · simp only [hgf] at h
            exact Except.noConfusion h
          · simp only [hgf] at h
            have hoff : (quadrantOffset pos).1 ≤ 8 ∧ (quadrantOffset pos).2 ≤ 8 := by
              cases pos <;> simp [quadrantOffset]
            exact ih _ b
              (wallSym_copyQuadrant g (quadrantOffset pos).1
                (quadrantOffset pos).2 (rotateCellsG face angle)
                hoff.1 hoff.2 hg) h

/-- Sealing the central dead zone preserves wall symmetry: its wall
writes come in matched facing pairs. -/
theorem wallSym_setCentral (g : Grid) (hs : WallSym g) :
    WallSym (setCentralBlockedArea g) := by
  have hun : ∀ x y : Nat, x < 6 ∨ 9 < x ∨ y < 6 ∨ 9 < y →
      setCentralBlockedArea g x y = g x y := by
    intro x y hxy
    simp only [setCentralBlockedArea, List.foldl_cons, List.foldl_nil,
      modifyCell]
    rw [if_neg (show ¬(x = 8 ∧ y = 9) from fun hc => by omega)]
    rw [if_neg (show ¬(x = 7 ∧ y = 9) from fun hc => by omega)]
    rw [if_neg (show ¬(x = 8 ∧ y = 6) from fun hc => by omega)]
    rw [if_neg (show ¬(x = 7 ∧ y = 6) from fun hc => by omega)]
    rw [if_neg (show ¬(x = 9 ∧ y = 8) from fun hc => by omega)]
    rw [if_neg (show ¬(x = 9 ∧ y = 7) from fun hc => by omega)]
    rw [if_neg (show ¬(x = 6 ∧ y = 8) from fun hc => by omega)]
    rw [if_neg (show ¬(x = 6 ∧ y = 7) from fun hc => by omega)]
    rw [if_neg (show ¬(x = 8 ∧ y = 8) from fun hc => by omega)]
    rw [if_neg (show ¬(x = 7 ∧ y = 8) from fun hc => by omega)]
    rw [if_neg (show ¬(x = 8 ∧ y = 7) from fun hc => by omega)]
    rw [if_neg (show ¬(x = 7 ∧ y = 7) from fun hc => by omega)]
  constructor
  · intro x y hx hy
    by_cases hreg : 5 ≤ x ∧ x ≤ 9 ∧ 6 ≤ y ∧ y ≤ 9
    · obtain ⟨hr1, hr2, hr3, hr4⟩ := hreg
      interval_cases x <;> interval_cases y <;>
        (simp [setCentralBlockedArea, modifyCell_lookup, Cell.setWall,
          Cell.clear, Cell.hasWall, Walls.set, Walls.get] <;>
          exact hs.1 _ _ (by omega) (by omega))
    · rw [hun x y (by omega), hun (x + 1) y (by omega)]
      exact hs.1 x y hx hy
  · intro x y hx hy
    by_cases hreg : 6 ≤ x ∧ x ≤ 9 ∧ 5 ≤ y ∧ y ≤ 9
    · obtain ⟨hr1, hr2, hr3, hr4⟩ := hreg
      interval_cases x <;> interval_cases y <;>
        (simp [setCentralBlockedArea, modifyCell_lookup, Cell.setWall,
          Cell.clear, Cell.hasWall, Walls.set, Walls.get] <;>
          exact hs.2 _ _ (by omega) (by omega))
    · rw [hun x y (by omega), hun x (y + 1) (by omega)]
      exact hs.2 x y hx hy

/-- C7: on every successfully constructed board, wall adjacency is
symmetric: for every pair of side-adjacent cells, the wall flag on one
cell facing its neighbor equals the neighbor's flag facing back. -/
theorem c7_wall_adjacency_symmetric (smallBoards : List SmallBoardData)
    (config : List BoardCfg) (b : Board)
    (h : buildBoard smallBoards config = .ok b) : WallSym b.cells := by
  unfold buildBoard at h
  rcases hv : validateConfig smallBoards config with e | u
  · simp only [hv] at h
    exact Except.noConfusion h
  · simp only [hv] at h
    rcases hp : placeLoop smallBoards config quadrantList emptyBoardGrid
      with e | g
    · simp only [hp] at h
      exact Except.noConfusion h
    · simp only [hp] at h
      injection h with h2
      subst h2
      exact wallSym_setCentral g
        (wallSym_placeLoop smallBoards config quadrantList emptyBoardGrid g
          wallSym_empty hp)

/-- Witness: the four-module construction succeeds and the claim applies
to the board it produces. -/
theorem c7_wall_adjacency_symmetric_witness :
    buildBoard witMods witCfg = .ok witBoard ∧ WallSym witBoard.cells :=
  ⟨rfl, c7_wall_adjacency_symmetric witMods witCfg witBoard rfl⟩

/-- Membership in the 8×8 index list is exactly the coordinate bounds. -/
theorem mem_smallIdx (x y : Nat) : (x, y) ∈ smallIdx ↔ x < 8 ∧ y < 8 := by
  simp only [smallIdx, List.mem_flatMap, List.mem_map, List.mem_range,
    Prod.mk.injEq]
  constructor
  · rintro ⟨b, hb, a, ha2, rfl, rfl⟩
    exact ⟨ha2, hb⟩
  · rintro ⟨hx, hy⟩
    exact ⟨y, hy, x, hx, rfl, rfl⟩

/-- The 8×8 index list has no duplicates. -/
theorem smallIdx_nodup : smallIdx.Nodup := by decide

/-- A fold of single-cell writes misses a position no step targets. -/
theorem foldl_modify_miss {α : Type} (P : α → Nat × Nat)
    (F : α → Cell → Cell) :
    ∀ (l : List α) (g0 : Grid) (u v : Nat), (∀ xy ∈ l, P xy ≠ (u, v)) →
    (l.foldl (fun acc xy => modifyCell acc (P xy).1 (P xy).2 (F xy)) g0) u v =
      g0 u v := by
  intro l
  induction l with
  | nil => intro g0 u v _; rfl
  | cons a t ih =>
    intro g0 u v hmiss
    rw [List.foldl_cons,
      ih _ u v (fun xy hxy => hmiss xy (List.mem_cons_of_mem a hxy))]
    simp only [modifyCell]
    rw [if_neg (fun hc => hmiss a (List.mem_cons_self a t)
      (Prod.ext hc.1.symm hc.2.symm))]

/-- A fold of single-cell writes whose unique writer of a position is
`src` ends with `F src` applied to the initial cell there. -/
theorem foldl_modify_char {α : Type} (P : α → Nat × Nat)
    (F : α → Cell → Cell) :
    ∀ (l : List α) (g0 : Grid) (u v : Nat) (src : α), src ∈ l →
    P src = (u, v) → (∀ xy ∈ l, P xy = (u, v) → xy = src) → l.Nodup →
    (l.foldl (fun acc xy => modifyCell acc (P xy).1 (P xy).2 (F xy)) g0) u v =
      F src (g0 u v) := by
  intro l
  induction l with
  | nil => intro g0 u v src h; cases h
  | cons a t ih =>
    intro g0 u v src hmem hP huniq hnd
    rw [List.foldl_cons]
    rcases List.mem_cons.mp hmem with rfl | hsrc_t
    · have hmiss : ∀ xy ∈ t, P xy ≠ (u, v) := by
        intro xy hxy heq
        have h2 := huniq xy (List.mem_cons_of_mem _ hxy) heq
        subst h2
        exact (List.nodup_cons.mp hnd).1 hxy
      rw [foldl_modify_miss P F t _ u v hmiss]
      simp only [modifyCell]
      rw [if_pos ⟨by rw [hP], by rw [hP]⟩]
    · have hne : P a ≠ (u, v) := by
        intro heq
        have h2 := huniq a (List.mem_cons_self a t) heq
        subst h2
        exact (List.nodup_cons.mp hnd).1 hsrc_t
      have hval : (modifyCell g0 (P a).1 (P a).2 (F a)) u v = g0 u v := by
        simp only [modifyCell]
        rw [if_neg (fun hc => hne (Prod.ext hc.1.symm hc.2.symm))]
      rw [ih _ u v src hsrc_t hP
        (fun xy hxy => huniq xy (List.mem_cons_of_mem a hxy))
        (List.nodup_cons.mp hnd).2, hval]

/-- Rotation by 90 degrees maps the inverse source of each in-range
position back to it, and inverse sources stay in range. -/
theorem rot_facts_90 : ∀ q ∈ smallIdx, invSrc 90 q ∈ smallIdx ∧
    ((rotatePoint ((invSrc 90 q).1 : Int) ((invSrc 90 q).2 : Int) 90 8).1.toNat,
      (rotatePoint ((invSrc 90 q).1 : Int) ((invSrc 90 q).2 : Int) 90
        8).2.toNat) = q := by decide

/-- Rotation by 180: inverse source facts. -/
theorem rot_facts_180 : ∀ q ∈ smallIdx, invSrc 180 q ∈ smallIdx ∧
    ((rotatePoint ((invSrc 180 q).1 : Int) ((invSrc 180 q).2 : Int) 180
        8).1.toNat,
      (rotatePoint ((invSrc 180 q).1 : Int) ((invSrc 180 q).2 : Int) 180
        8).2.toNat) = q := by decide

/-- Rotation by 270: inverse source facts. -/
theorem rot_facts_270 : ∀ q ∈ smallIdx, invSrc 270 q ∈ smallIdx ∧
    ((rotatePoint ((invSrc 270 q).1 : Int) ((invSrc 270 q).2 : Int) 270
        8).1.toNat,
      (rotatePoint ((invSrc 270 q).1 : Int) ((invSrc 270 q).2 : Int) 270
        8).2.toNat) = q := by decide

/-- The inverse source is a left inverse of the 90-degree write map. -/
theorem rotLeft_90 : ∀ xy ∈ smallIdx,
    invSrc 90 ((rotatePoint (xy.1 : Int) (xy.2 : Int) 90 8).1.toNat,
      (rotatePoint (xy.1 : Int) (xy.2 : Int) 90 8).2.toNat) = xy := by decide

/-- The inverse source is a left inverse of the 180-degree write map. -/
theorem rotLeft_180 : ∀ xy ∈ smallIdx,
    invSrc 180 ((rotatePoint (xy.1 : Int) (xy.2 : Int) 180 8).1.toNat,
      (rotatePoint (xy.1 : Int) (xy.2 : Int) 180 8).2.toNat) = xy := by decide

/-- The inverse source is a left inverse of the 270-degree write map. -/
theorem rotLeft_270 : ∀ xy ∈ smallIdx,
    invSrc 270 ((rotatePoint (xy.1 : Int) (xy.2 : Int) 270 8).1.toNat,
      (rotatePoint (xy.1 : Int) (xy.2 : Int) 270 8).2.toNat) = xy := by decide

/-- Inverse sources of complementary angles cancel (90 case). -/
theorem invComp_90 : ∀ q ∈ smallIdx, invSrc 90 (invSrc 270 q) = q := by decide

/-- Inverse sources of complementary angles cancel (180 case). -/
theorem invComp_180 : ∀ q ∈ smallIdx, invSrc 180 (invSrc 180 q) = q := by
  decide

/-- Inverse sources of complementary angles cancel (270 case). -/
theorem invComp_270 : ∀ q ∈ smallIdx, invSrc 270 (invSrc 90 q) = q := by
  decide

set_option maxHeartbeats 1600000 in
/-- Lookup of a rotated grid at an in-range position: the merged content
of the unique inverse-source cell, written onto a fresh cell. -/
theorem rotateGridOnce_lookup (g : Grid) (a : Nat)
    (ha : a = 90 ∨ a = 180 ∨ a = 270) (x y : Nat) (hx : x < 8) (hy : y < 8) :
    rotateGridOnce g a x y =
      mergeRotated a (g (invSrc a (x, y)).1 (invSrc a (x, y)).2) Cell.new := by
  have hq : (x, y) ∈ smallIdx := (mem_smallIdx x y).mpr ⟨hx, hy⟩
  unfold rotateGridOnce
  rcases ha with rfl | rfl | rfl
  · exact foldl_modify_char
      (fun xy => ((rotatePoint (xy.1 : Int) (xy.2 : Int) 90 8).1.toNat,
        (rotatePoint (xy.1 : Int) (xy.2 : Int) 90 8).2.toNat))
      (fun xy => mergeRotated 90 (g xy.1 xy.2)) smallIdx _ x y
      (invSrc 90 (x, y)) (rot_facts_90 _ hq).1 (rot_facts_90 _ hq).2
      (fun xy hxy heq =>
        (rotLeft_90 xy hxy).symm.trans (congrArg (invSrc 90) heq))
      smallIdx_nodup
  · exact foldl_modify_char
      (fun xy => ((rotatePoint (xy.1 : Int) (xy.2 : Int) 180 8).1.toNat,
        (rotatePoint (xy.1 : Int) (xy.2 : Int) 180 8).2.toNat))
      (fun xy => mergeRotated 180 (g xy.1 xy.2)) smallIdx _ x y
      (invSrc 180 (x, y)) (rot_facts_180 _ hq).1 (rot_facts_180 _ hq).2
      (fun xy hxy heq =>
        (rotLeft_180 xy hxy).symm.trans (congrArg (invSrc 180) heq))
      smallIdx_nodup
  · exact foldl_modify_char
      (fun xy => ((rotatePoint (xy.1 : Int) (xy.2 : Int) 270 8).1.toNat,
        (rotatePoint (xy.1 : Int) (xy.2 : Int) 270 8).2.toNat))
      (fun xy => mergeRotated 270 (g xy.1 xy.2)) smallIdx _ x y
      (invSrc 270 (x, y)) (rot_facts_270 _ hq).1 (rot_facts_270 _ hq).2
      (fun xy hxy heq =>
        (rotLeft_270 xy hxy).symm.trans (congrArg (invSrc 270) heq))
      smallIdx_nodup

set_option maxHeartbeats 1600000 in
/-- Closed form of a 90-degree content merge onto a fresh cell. -/
theorem merge90_eq (wt wr wb wl : Bool) (pr : Option Prism)
    (tg : Option Target) :
    mergeRotated 90 ⟨⟨wt, wr, wb, wl⟩, pr, tg⟩ Cell.new =
      ⟨⟨wl, wt, wr, wb⟩, pr.map (fun p => p.rotate 90 8),
        tg.map (fun t => t.rotate 90 8)⟩ := by
  cases wt <;> cases wr <;> cases wb <;> cases wl <;> cases pr <;> cases tg <;>
    rfl

set_option maxHeartbeats 1600000 in
/-- Closed form of a 180-degree content merge onto a fresh cell. -/
theorem merge180_eq (wt wr wb wl : Bool) (pr : Option Prism)
    (tg : Option Target) :
    mergeRotated 180 ⟨⟨wt, wr, wb, wl⟩, pr, tg⟩ Cell.new =
      ⟨⟨wb, wl, wt, wr⟩, pr.map (fun p => p.rotate 180 8),
        tg.map (fun t => t.rotate 180 8)⟩ := by
  cases wt <;> cases wr <;> cases wb <;> cases wl <;> cases pr <;> cases tg <;>
    rfl

set_option maxHeartbeats 1600000 in
/-- Closed form of a 270-degree content merge onto a fresh cell. -/
theorem merge270_eq (wt wr wb wl : Bool) (pr : Option Prism)
    (tg : Option Target) :
    mergeRotated 270 ⟨⟨wt, wr, wb, wl⟩, pr, tg⟩ Cell.new =
      ⟨⟨wr, wb, wl, wt⟩, pr.map (fun p => p.rotate 270 8),
        tg.map (fun t => t.rotate 270 8)⟩ := by
  cases wt <;> cases wr <;> cases wb <;> cases wl <;> cases pr <;> cases tg <;>
    rfl

/-- Rotating a valid diagonal tag by 90 then 270 degrees restores it. -/
theorem prismDir_round_90 (d : String) (hd : d = "\\" ∨ d = "/") :
    rotatePrismDirection (rotatePrismDirection d 90) 270 = d := by
  rcases hd with rfl | rfl <;> rfl

/-- Rotating a valid diagonal tag by 270 then 90 degrees restores it. -/
theorem prismDir_round_270 (d : String) (hd : d = "\\" ∨ d = "/") :
    rotatePrismDirection (rotatePrismDirection d 270) 90 = d := by
  rcases hd with rfl | rfl <;> rfl

/-- A target rotated by 90 then 270 degrees is restored. -/
theorem target_round_90 (t : Target) : (t.rotate 90 8).rotate 270 8 = t := by
  obtain ⟨tx, ty, sh, co, ti⟩ := t
  simp [Target.rotate, rotatePoint]

/-- A target rotated twice by 180 degrees is restored. -/
theorem target_round_180 (t : Target) : (t.rotate 180 8).rotate 180 8 = t := by
  obtain ⟨tx, ty, sh, co, ti⟩ := t
  simp [Target.rotate, rotatePoint]

/-- A target rotated by 270 then 90 degrees is restored. -/
theorem target_round_270 (t : Target) : (t.rotate 270 8).rotate 90 8 = t := by
  obtain ⟨tx, ty, sh, co, ti⟩ := t
  simp [Target.rotate, rotatePoint]

/-- A valid prism rotated by 90 then 270 degrees is restored. -/
theorem prism_round_90 (p : Prism)
    (hd : p.direction = "\\" ∨ p.direction = "/") :
    (p.rotate 90 8).rotate 270 8 = p := by
  obtain ⟨px, py, pd, pc⟩ := p
  have hdir := prismDir_round_90 pd hd
  simp [Prism.rotate, rotatePoint, hdir]

/-- A prism rotated twice by 180 degrees is restored. -/
theorem prism_round_180 (p : Prism) : (p.rotate 180 8).rotate 180 8 = p := by
  obtain ⟨px, py, pd, pc⟩ := p
  simp [Prism.rotate, rotatePoint, rotatePrismDirection]

/-- A valid prism rotated by 270 then 90 degrees is restored. -/
theorem prism_round_270 (p : Prism)
    (hd : p.direction = "\\" ∨ p.direction = "/") :
    (p.rotate 270 8).rotate 90 8 = p := by
  obtain ⟨px, py, pd, pc⟩ := p
  have hdir := prismDir_round_270 pd hd
  simp [Prism.rotate, rotatePoint, hdir]

/-- A cell's merged content rotated by 90 then 270 degrees is
restored. -/
theorem cell_round_90 (c : Cell)
    (hpc : ∀ p, c.prism = some p →
      p.direction = "\\" ∨ p.direction = "/") :
    mergeRotated 270 (mergeRotated 90 c Cell.new) Cell.new = c := by
  obtain ⟨⟨wt, wr, wb, wl⟩, pr, tg⟩ := c
  rw [merge90_eq, merge270_eq]
  rcases pr with _ | p
  · rcases tg with _ | t <;> simp [target_round_90]
  · have hpd := hpc p rfl
    rcases tg with _ | t <;> simp [prism_round_90 p hpd, target_round_90]

/-- A cell's merged content rotated twice by 180 degrees is restored. -/
theorem cell_round_180 (c : Cell) :
    mergeRotated 180 (mergeRotated 180 c Cell.new) Cell.new = c := by
  obtain ⟨⟨wt, wr, wb, wl⟩, pr, tg⟩ := c
  rw [merge180_eq, merge180_eq]
  rcases pr with _ | p <;> rcases tg with _ | t <;>
    simp [prism_round_180, target_round_180]

/-- A cell's merged content rotated by 270 then 90 degrees is
restored. -/
theorem cell_round_270 (c : Cell)
    (hpc : ∀ p, c.prism = some p →
      p.direction = "\\" ∨ p.direction = "/") :
    mergeRotated 90 (mergeRotated 270 c Cell.new) Cell.new = c := by
  obtain ⟨⟨wt, wr, wb, wl⟩, pr, tg⟩ := c
  rw [merge270_eq, merge90_eq]
  rcases pr with _ | p
  · rcases tg with _ | t <;> simp [target_round_270]
  · have hpd := hpc p rfl
    rcases tg with _ | t <;> simp [prism_round_270 p hpd, target_round_270]

/-- Target writes never change a cell's prism. -/
theorem targets_fold_prism (l : List Target) :
    ∀ (g : Grid) (x y : Nat),
    ((l.foldl (fun g t => modifyCell g t.x.toNat t.y.toNat
      (fun c => c.setTarget t)) g) x y).prism = (g x y).prism := by
  induction l with
  | nil => intro g x y; rfl
  | cons t ts ih =>
    intro g x y
    rw [List.foldl_cons, ih]
    simp only [modifyCell]
    split_ifs <;> rfl

/-- Wall mirroring never changes a cell's prism. -/
theorem syncAdjacentWall_prism (size : Nat) (g : Grid) (wx wy : Nat)
    (side : Side) (x y : Nat) :
    ((syncAdjacentWall size g wx wy side) x y).prism = (g x y).prism := by
  simp only [syncAdjacentWall]
  split
  · simp only [modifyCell]
    split_ifs <;> rfl
  · rfl

/-- Applying one authored wall record never changes a cell's prism. -/
theorem applyWallData_prism (size : Nat) (w : WallData) :
    ∀ (g : Grid) (x y : Nat),
    ((applyWallData size g w) x y).prism = (g x y).prism := by
  suffices h : ∀ (l : List Side) (g : Grid) (x y : Nat),
      ((l.foldl (fun g side => syncAdjacentWall size
        (modifyCell g w.x w.y (fun c => c.setWall side true)) w.x w.y side)
        g) x y).prism = (g x y).prism by
    intro g x y
    exact h w.sides g x y
  intro l
  induction l with
  | nil => intro g x y; rfl
  | cons sd ss ih =>
    intro g x y
    rw [List.foldl_cons, ih, syncAdjacentWall_prism]
    simp only [modifyCell]
    split_ifs <;> rfl

/-- The authored-walls fold never changes a cell's prism. -/
theorem wallsFold_prism (l : List WallData) :
    ∀ (g : Grid) (x y : Nat),
    ((l.foldl (applyWallData 8) g) x y).prism = (g x y).prism := by
  induction l with
  | nil => intro g x y; rfl
  | cons w ws ih =>
    intro g x y
    rw [List.foldl_cons, ih, applyWallData_prism]

/-- After the prism fold, every cell's prism is either inherited or one
of the written prisms. -/
theorem prisms_fold_prism (l : List Prism) :
    ∀ (g : Grid) (x y : Nat),
    ((l.foldl (fun g p => modifyCell g p.x.toNat p.y.toNat
      (fun c => c.setPrism p)) g) x y).prism = (g x y).prism ∨
    ∃ p ∈ l, ((l.foldl (fun g p => modifyCell g p.x.toNat p.y.toNat
      (fun c => c.setPrism p)) g) x y).prism = some p := by
  induction l with
  | nil => intro g x y; left; rfl
  | cons p ps ih =>
    intro g x y
    rw [List.foldl_cons]
    rcases ih (modifyCell g p.x.toNat p.y.toNat (fun c => c.setPrism p)) x y
      with h | ⟨q, hq, h⟩
    · rw [h]
      simp only [modifyCell]
      split_ifs with hxy
      · right
        exact ⟨p, List.mem_cons_self p ps, rfl⟩
      · left
        rfl
    · right
      exact ⟨q, List.mem_cons_of_mem p hq, h⟩

/-- Every prism stored in a materialized face cell comes from the face's
authored prism list. -/
theorem createCells_prism_prov (face : FaceData) (x y : Nat) :
    (createCells face x y).prism = none ∨
    ∃ p ∈ face.prisms, (createCells face x y).prism = some p := by
  simp only [createCells]
  rw [targets_fold_prism]
  rcases prisms_fold_prism face.prisms
      (face.walls.foldl (applyWallData 8) (fun _ _ => Cell.new)) x y
    with h | ⟨p, hp, h⟩
  · left
    rw [h, wallsFold_prism]
    rfl
  · right
    exact ⟨p, hp, h⟩

/-- C9: for every module face whose authored prisms carry valid diagonal
tags and every angle a in {90, 180, 270}, rotating the materialized 8×8
face content by a and then by 360−a reproduces the original content cell
by cell (walls, prism, target), and rotation by 0 degrees is the
identity on the materialized face. -/
theorem c9_rotation_roundtrip (face : FaceData) (a : Nat)
    (ha : a = 90 ∨ a = 180 ∨ a = 270)
    (hpv : ∀ p ∈ face.prisms, p.direction = "\\" ∨ p.direction = "/")
    (x y : Nat) (hx : x < 8) (hy : y < 8) :
    rotateGridOnce (rotateCellsG face a) (360 - a) x y =
      createCells face x y ∧ rotateCellsG face 0 = createCells face := by
  have hpc : ∀ (u v : Nat) (p : Prism),
      (createCells face u v).prism = some p →
      p.direction = "\\" ∨ p.direction = "/" := by
    intro u v p hp
    rcases createCells_prism_prov face u v with hnone | ⟨q, hqmem, hq⟩
    · rw [hnone] at hp
      exact Option.noConfusion hp
    · rw [hq] at hp
      injection hp with hpq
      subst hpq
      exact hpv q hqmem
  refine ⟨?_, by rw [rotateCellsG, if_pos rfl]⟩
  have hq : (x, y) ∈ smallIdx := (mem_smallIdx x y).mpr ⟨hx, hy⟩
  rcases ha with rfl | rfl | rfl
  · rw [show (360 : Nat) - 90 = 270 from rfl]
    rw [rotateCellsG, if_neg (by decide : ¬(90 = 0))]
    rw [rotateGridOnce_lookup _ 270 (Or.inr (Or.inr rfl)) x y hx hy]
    have hmid := (rot_facts_270 (x, y) hq).1
    obtain ⟨hsx, hsy⟩ :=
      (mem_smallIdx (invSrc 270 (x, y)).1 (invSrc 270 (x, y)).2).mp hmid
    rw [rotateGridOnce_lookup (createCells face) 90 (Or.inl rfl) _ _ hsx hsy]
    have hcomp : invSrc 90 ((invSrc 270 (x, y)).1, (invSrc 270 (x, y)).2) =
        (x, y) := invComp_90 (x, y) hq
    rw [hcomp]
    exact cell_round_90 (createCells face x y) (hpc x y)
  · rw [show (360 : Nat) - 180 = 180 from rfl]
    rw [rotateCellsG, if_neg (by decide : ¬(180 = 0))]
    rw [rotateGridOnce_lookup _ 180 (Or.inr (Or.inl rfl)) x y hx hy]
    have hmid := (rot_facts_180 (x, y) hq).1
    obtain ⟨hsx, hsy⟩ :=
      (mem_smallIdx (invSrc 180 (x, y)).1 (invSrc 180 (x, y)).2).mp hmid
    rw [rotateGridOnce_lookup (createCells face) 180 (Or.inr (Or.inl rfl))
      _ _ hsx hsy]
    have hcomp : invSrc 180 ((invSrc 180 (x, y)).1, (invSrc 180 (x, y)).2) =
        (x, y) := invComp_180 (x, y) hq
    rw [hcomp]
    exact cell_round_180 (createCells face x y)
  · rw [show (360 : Nat) - 270 = 90 from rfl]
    rw [rotateCellsG, if_neg (by decide : ¬(270 = 0))]
    rw [rotateGridOnce_lookup _ 90 (Or.inl rfl) x y hx hy]
    have hmid := (rot_facts_90 (x, y) hq).1
    obtain ⟨hsx, hsy⟩ :=
      (mem_smallIdx (invSrc 90 (x, y)).1 (invSrc 90 (x, y)).2).mp hmid
    rw [rotateGridOnce_lookup (createCells face) 270 (Or.inr (Or.inr rfl))
      _ _ hsx hsy]
    have hcomp : invSrc 270 ((invSrc 90 (x, y)).1, (invSrc 90 (x, y)).2) =
        (x, y) := invComp_270 (x, y) hq
    rw [hcomp]
    exact cell_round_270 (createCells face x y) (hpc x y)

/-- Witness: the concrete face with a backslash prism satisfies the
hypotheses and the round trip holds at (3, 3) for a 90-degree
rotation. -/
theorem c9_rotation_roundtrip_witness :
    (∀ p ∈ wFace.prisms, p.direction = "\\" ∨ p.direction = "/") ∧
    (rotateGridOnce (rotateCellsG wFace 90) (360 - 90) 3 3 =
      createCells wFace 3 3 ∧ rotateCellsG wFace 0 = createCells wFace) :=
  ⟨by decide, c9_rotation_roundtrip wFace 90 (Or.inl rfl) (by decide) 3 3
    (by decide) (by decide)⟩

/-- The data of the intercalate worker is the accumulator's data
followed by the separated tail. -/
theorem go_data_bar : ∀ (l : List String) (acc : String),
    (String.intercalate.go acc "|" l).data = acc.data ++ joinTail l := by
  intro l
  induction l with
  | nil => intro acc; simp [String.intercalate.go, joinTail]
  | cons a as ih =>
    intro acc
    rw [show String.intercalate.go acc "|" (a :: as) =
      String.intercalate.go (acc ++ "|" ++ a) "|" as from rfl, ih]
    simp [String.data_append, joinTail]

/-- The data of a bar intercalation is the character-level join. -/
theorem intercalate_data_bar (l : List String) :
    (String.intercalate "|" l).data = joinBar l := by
  cases l with
  | nil => rfl
  | cons a as =>
    rw [show String.intercalate "|" (a :: as) =
      String.intercalate.go a "|" as from rfl, go_data_bar]
    rfl

/-- Splitting two concatenations at the first occurrence of a separator
absent from both prefixes. -/
theorem append_sep_inj (c : Char) :
    ∀ (l1 l2 m1 m2 : List Char), c ∉ l1 → c ∉ l2 →
    l1 ++ c :: m1 = l2 ++ c :: m2 → l1 = l2 ∧ m1 = m2 := by
  intro l1
  induction l1 with
  | nil =>
    intro l2 m1 m2 _ h2 h
    cases l2 with
    | nil => simpa using h
    | cons b bs =>
      rw [List.nil_append, List.cons_append] at h
      injection h with hc hm
      subst hc
      exact absurd (List.mem_cons_self _ _) h2
  | cons a as ih =>
    intro l2 m1 m2 h1 h2 h
    cases l2 with
    | nil =>
      rw [List.nil_append, List.cons_append] at h
      injection h with hc hm
      subst hc
      exact absurd (List.mem_cons_self _ _) h1
    | cons b bs =>
      rw [List.cons_append, List.cons_append] at h
      injection h with hab hm
      subst hab
      obtain ⟨he, hm2⟩ := ih bs m1 m2
        (fun hmem => h1 (List.mem_cons_of_mem _ hmem))
        (fun hmem => h2 (List.mem_cons_of_mem _ hmem)) hm
      exact ⟨by rw [he], hm2⟩

/-- Decimal renderings of the sixteen board coordinates contain none of
the three separator characters and are nonempty. -/
theorem intStr_facts : ∀ n ∈ List.range 16,
    (∀ ch ∈ (toString ((n : Nat) : Int)).data,
      ch ≠ ':' ∧ ch ≠ ',' ∧ ch ≠ '|') ∧
    (toString ((n : Nat) : Int)).data ≠ [] := by decide

/-- Decimal renderings of the sixteen board coordinates are pairwise
distinct. -/
theorem intStr_inj : ∀ m ∈ List.range 16, ∀ n ∈ List.range 16,
    toString ((m : Nat) : Int) = toString ((n : Nat) : Int) → m = n := by
  decide

/-- The four color tags contain no separator characters and are
nonempty. -/
theorem color_facts : ∀ c ∈ fourColors,
    (∀ ch ∈ (c : String).data, ch ≠ ':' ∧ ch ≠ ',' ∧ ch ≠ '|') ∧
    (c : String).data ≠ [] := by decide

/-- The characters of an encoded robot: color, colon, x, comma, y. -/
theorem encRobot_data (r : RobotState) :
    (encRobot r).data = r.color.data ++
      ':' :: ((toString r.x).data ++ ',' :: (toString r.y).data) := by
  simp [encRobot, String.data_append]

/-- An in-range coordinate rendering equals the rendering of its
natural-number value. -/
theorem coordStr_eq (x : Int) (h0 : 0 ≤ x) :
    toString x = toString ((x.toNat : Nat) : Int) := by
  rw [Int.toNat_of_nonneg h0]

/-- Separator freedom of an in-range coordinate rendering. -/
theorem coordStr_sepfree (x : Int) (h0 : 0 ≤ x) (h16 : x < 16) :
    ∀ ch ∈ (toString x).data, ch ≠ ':' ∧ ch ≠ ',' ∧ ch ≠ '|' := by
  rw [coordStr_eq x h0]
  exact (intStr_facts x.toNat (List.mem_range.mpr (by omega))).1

/-- Injectivity of coordinate renderings on the board range. -/
theorem coordStr_inj (x1 x2 : Int) (h1 : 0 ≤ x1) (h1b : x1 < 16)
    (h2 : 0 ≤ x2) (h2b : x2 < 16)
    (h : toString x1 = toString x2) : x1 = x2 := by
  rw [coordStr_eq x1 h1, coordStr_eq x2 h2] at h
  have := intStr_inj x1.toNat (List.mem_range.mpr (by omega))
    x2.toNat (List.mem_range.mpr (by omega)) h
  omega

/-- Robot encodings are injective on well-formed robots. -/
theorem encRobot_inj (r1 r2 : RobotState)
    (h1c : r1.color ∈ fourColors) (h2c : r2.color ∈ fourColors)
    (h1b : inBoard r1.x r1.y) (h2b : inBoard r2.x r2.y)
    (h : encRobot r1 = encRobot r2) : r1 = r2 := by
  obtain ⟨h1x0, h1x16, h1y0, h1y16⟩ := h1b
  obtain ⟨h2x0, h2x16, h2y0, h2y16⟩ := h2b
  have hd := congrArg String.data h
  rw [encRobot_data, encRobot_data] at hd
  have hc1 : ':' ∉ r1.color.data :=
    fun hm => ((color_facts _ h1c).1 ':' hm).1 rfl
  have hc2 : ':' ∉ r2.color.data :=
    fun hm => ((color_facts _ h2c).1 ':' hm).1 rfl
  obtain ⟨hcol, hrest⟩ := append_sep_inj ':' _ _ _ _ hc1 hc2 hd
  have hx1 : ',' ∉ (toString r1.x).data :=
    fun hm => (coordStr_sepfree r1.x h1x0 h1x16 ',' hm).2.1 rfl
  have hx2 : ',' ∉ (toString r2.x).data :=
    fun hm => (coordStr_sepfree r2.x h2x0 h2x16 ',' hm).2.1 rfl
  obtain ⟨hxd, hyd⟩ := append_sep_inj ',' _ _ _ _ hx1 hx2 hrest
  have hxe : r1.x = r2.x :=
    coordStr_inj _ _ h1x0 h1x16 h2x0 h2x16 (String.ext hxd)
  have hye : r1.y = r2.y :=
    coordStr_inj _ _ h1y0 h1y16 h2y0 h2y16 (String.ext hyd)
  obtain ⟨c1, x1, y1⟩ := r1
  obtain ⟨c2, x2, y2⟩ := r2
  simp only at hcol hxe hye
  rw [show c1 = c2 from String.ext hcol, hxe, hye]

/-- Sorted insertion permutes to consing. -/
theorem insertSortedStr_perm (s : String) :
    ∀ l, List.Perm (insertSortedStr s l) (s :: l) := by
  intro l
  induction l with
  | nil => exact List.Perm.refl _
  | cons t ts ih =>
    unfold insertSortedStr
    split_ifs with h
    · exact List.Perm.refl _
    · exact (ih.cons t).trans (List.Perm.swap s t ts)

/-- The string sort is a permutation. -/
theorem sortStrings_perm (l : List String) : List.Perm (sortStrings l) l := by
  induction l with
  | nil => exact List.Perm.refl _
  | cons a as ih =>
    exact (insertSortedStr_perm a (sortStrings as)).trans (ih.cons a)

/-- The character-level bar join is injective on lists of nonempty
bar-free strings. -/
theorem joinBar_inj : ∀ (l1 l2 : List String),
    (∀ e ∈ l1, '|' ∉ (e : String).data ∧ (e : String).data ≠ []) →
    (∀ e ∈ l2, '|' ∉ (e : String).data ∧ (e : String).data ≠ []) →
    joinBar l1 = joinBar l2 → l1 = l2 := by
  intro l1
  induction l1 with
  | nil =>
    intro l2 _ h2 h
    cases l2 with
    | nil => rfl
    | cons b bs =>
      exfalso
      simp only [joinBar] at h
      exact (h2 b (List.mem_cons_self _ _)).2 (List.append_eq_nil.mp h.symm).1
  | cons a as ih =>
    intro l2 h1 h2 h
    cases l2 with
    | nil =>
      exfalso
      simp only [joinBar] at h
      exact (h1 a (List.mem_cons_self _ _)).2 (List.append_eq_nil.mp h).1
    | cons b bs =>
      simp only [joinBar] at h
      cases as with
      | nil =>
        cases bs with
        | nil =>
          simp only [joinTail, List.append_nil] at h
          rw [String.ext h]
        | cons c cs =>
          exfalso
          simp only [joinTail, List.append_nil] at h
          have : '|' ∈ (a : String).data := by
            rw [h]
            exact List.mem_append_right _ (List.mem_cons_self _ _)
          exact (h1 a (List.mem_cons_self _ _)).1 this
      | cons c cs =>
        cases bs with
        | nil =>
          exfalso
          simp only [joinTail, List.append_nil] at h
          have : '|' ∈ (b : String).data := by
            rw [← h]
            exact List.mem_append_right _ (List.mem_cons_self _ _)
          exact (h2 b (List.mem_cons_self _ _)).1 this
        | cons d ds =>
          simp only [joinTail] at h
          obtain ⟨hab, hrest⟩ := append_sep_inj '|' _ _ _ _
            (h1 a (List.mem_cons_self _ _)).1 (h2 b (List.mem_cons_self _ _)).1 h
          have htail := ih (d :: ds)
            (fun e he => h1 e (List.mem_cons_of_mem _ he))
            (fun e he => h2 e (List.mem_cons_of_mem _ he))
            (show joinBar (c :: cs) = joinBar (d :: ds) from hrest)
          rw [String.ext hab, htail]

/-- Members of a class state are well-formed robots. -/
theorem InC_member_wf (robots0 : List RobotState) (hwf : Wf robots0)
    (s : List RobotState) (hs : InC robots0 s) :
    ∀ r ∈ s, r.color ∈ fourColors ∧ inBoard r.x r.y := by
  intro r hr
  refine ⟨?_, hs.2 r hr⟩
  have hm : r.color ∈ s.map RobotState.color := List.mem_map_of_mem _ hr
  rw [hs.1] at hm
  obtain ⟨r0, hr0, he⟩ := List.mem_map.mp hm
  exact he ▸ (hwf.2 r0 hr0).1

/-- Encodings of class-state robots are bar-free and nonempty. -/
theorem InC_enc_wf (robots0 : List RobotState) (hwf : Wf robots0)
    (s : List RobotState) (hs : InC robots0 s) :
    ∀ e ∈ s.map encRobot, '|' ∉ (e : String).data ∧
      (e : String).data ≠ [] := by
  intro e he
  obtain ⟨r, hr, hre⟩ := List.mem_map.mp he
  obtain ⟨hcol, hx0, hx16, hy0, hy16⟩ :
      r.color ∈ fourColors ∧ 0 ≤ r.x ∧ r.x < 16 ∧ 0 ≤ r.y ∧ r.y < 16 := by
    obtain ⟨h1, h2⟩ := InC_member_wf robots0 hwf s hs r hr
    exact ⟨h1, h2.1, h2.2.1, h2.2.2.1, h2.2.2.2⟩
  subst hre
  constructor
  · intro hm
    rw [encRobot_data] at hm
    rcases List.mem_append.mp hm with hm | hm
    · exact ((color_facts _ hcol).1 _ hm).2.2 rfl
    · rcases List.mem_cons.mp hm with hm | hm
      · exact absurd hm (by decide)
      · rcases List.mem_append.mp hm with hm | hm
        · exact (coordStr_sepfree r.x hx0 hx16 _ hm).2.2 rfl
        · rcases List.mem_cons.mp hm with hm | hm
          · exact absurd hm (by decide)
          · exact (coordStr_sepfree r.y hy0 hy16 _ hm).2.2 rfl
  · intro hm
    rw [encRobot_data] at hm
    obtain ⟨h1, h2⟩ := List.append_eq_nil.mp hm
    exact List.cons_ne_nil _ _ h2

/-- Canonical state strings are injective on class states. -/
theorem stateToString_inj (robots0 : List RobotState) (hwf : Wf robots0)
    (s1 s2 : List RobotState) (h1 : InC robots0 s1) (h2 : InC robots0 s2)
    (h : stateToString s1 = stateToString s2) : s1 = s2 := by
  have hj : joinBar (sortStrings (s1.map encRobot)) =
      joinBar (sortStrings (s2.map encRobot)) := by
    have hd := congrArg String.data h
    rw [show stateToString s1 =
        String.intercalate "|" (sortStrings (s1.map encRobot)) from rfl,
      show stateToString s2 =
        String.intercalate "|" (sortStrings (s2.map encRobot)) from rfl,
      intercalate_data_bar, intercalate_data_bar] at hd
    exact hd
  have hsorted : sortStrings (s1.map encRobot) =
      sortStrings (s2.map encRobot) :=
    joinBar_inj _ _
      (fun e he => InC_enc_wf robots0 hwf s1 h1 e
        ((sortStrings_perm _).mem_iff.mp he))
      (fun e he => InC_enc_wf robots0 hwf s2 h2 e
        ((sortStrings_perm _).mem_iff.mp he))
      hj
  have hperm : List.Perm (s1.map encRobot) (s2.map encRobot) :=
    (sortStrings_perm _).symm.trans (hsorted ▸ sortStrings_perm _)
  have hlen : s1.length = s2.length := by
    have e1 := congrArg List.length h1.1
    have e2 := congrArg List.length h2.1
    simpa using e1.trans e2.symm
  apply List.ext_getElem hlen
  intro k hk1 hk2
  have hmem1 : s1[k] ∈ s1 := List.getElem_mem hk1
  have hememb : encRobot s1[k] ∈ s2.map encRobot :=
    hperm.mem_iff.mp (List.mem_map_of_mem _ hmem1)
  obtain ⟨r, hr, hre⟩ := List.mem_map.mp hememb
  have hreq : r = s1[k] := by
    obtain ⟨hc1, hb1⟩ := InC_member_wf robots0 hwf s1 h1 s1[k] hmem1
    obtain ⟨hc2, hb2⟩ := InC_member_wf robots0 hwf s2 h2 r hr
    exact encRobot_inj r s1[k] hc2 hc1 hb2 hb1 hre
  obtain ⟨j, hjlt, hjr⟩ := List.mem_iff_getElem.mp hr
  have hcolk : s1[k].color = s2[k].color := by
    have hmap : s1.map RobotState.color = s2.map RobotState.color :=
      h1.1.trans h2.1.symm
    have e1 := congrArg (fun l => l[k]?) hmap
    simp only [List.getElem?_map, List.getElem?_eq_getElem hk1,
      List.getElem?_eq_getElem hk2] at e1
    simpa using e1
  have hcolj : s2[j].color = s1[k].color := by
    rw [hjr, hreq]
  have hjk : j = k := by
    have hnodup : (s2.map RobotState.color).Nodup := by
      rw [h2.1]
      exact hwf.1
    have hjlt2 : j < (s2.map RobotState.color).length := by
      rw [List.length_map]
      exact hjlt
    have hklt2 : k < (s2.map RobotState.color).length := by
      rw [List.length_map]
      exact hk2
    have heq2 : (s2.map RobotState.color).get ⟨j, hjlt2⟩ =
        (s2.map RobotState.color).get ⟨k, hklt2⟩ := by
      simp only [List.get_eq_getElem, List.getElem_map]
      rw [hcolj, hcolk]
    have hfin := (List.Nodup.get_inj_iff hnodup).mp heq2
    exact congrArg Fin.val hfin
  subst hjk
  rw [hjr, hreq]

/-- A simulated slide from an on-board start ends on the board. -/
theorem simulateMove_inBoard (b : Board) (robot : RobotState) (d : Dir)
    (robots : List RobotState) (h : inBoard robot.x robot.y) :
    inBoard (simulateMove b robot d robots).finalX
      (simulateMove b robot d robots).finalY :=
  (simLoop_good b robot robots 100 robot.x robot.y d [] [] h
    (by intro sg hsg; cases hsg)).1

/-- An out-of-range index gives no move outcome. -/
theorem moveOutcome_some_lt (b : Board) (s : List RobotState) (i : Nat)
    (d : Dir) (t : List RobotState) (h : moveOutcome b s i d = some t) :
    i < s.length := by
  unfold moveOutcome at h
  rcases hg : s[i]? with _ | robot
  · simp only [hg] at h
    exact Option.noConfusion h
  · exact (List.getElem?_eq_some_iff.mp hg).1

/-- One valid action keeps the state in the search class. -/
theorem moveOutcome_InC (b : Board) (robots0 s : List RobotState) (i : Nat)
    (d : Dir) (t : List RobotState) (hs : InC robots0 s)
    (h : moveOutcome b s i d = some t) : InC robots0 t := by
  unfold moveOutcome at h
  rcases hg : s[i]? with _ | robot
  · simp only [hg] at h
    exact Option.noConfusion h
  · simp only [hg] at h
    split_ifs at h with hm
    · injection h with ht
      subst ht
      constructor
      · rw [mapIdx_pres_color]
        · exact hs.1
        · intro j r
          by_cases hj : j = i <;> simp [hj]
      · intro r hr
        obtain ⟨k, hklt, heq⟩ := List.mem_mapIdx.mp hr
        by_cases hki : k = i
        · subst hki
          rw [if_pos rfl] at heq
          have hrob : robot = s[k] := (List.getElem?_eq_some_iff.mp hg).2.symm
          have hstart : inBoard robot.x robot.y :=
            hs.2 robot (hrob ▸ List.getElem_mem hklt)
          have hib := simulateMove_inBoard b robot d s hstart
          rw [← heq]
          exact hib
        · rw [if_neg hki] at heq
          subst heq
          exact hs.2 _ (List.getElem_mem hklt)

/-- Running an appended action list is sequential composition. -/
theorem runMoves_append (b : Board) :
    ∀ (l1 l2 : List (Nat × Dir)) (s : List RobotState),
    runMoves b s (l1 ++ l2) = match runMoves b s l1 with
      | none => none
      | some t => runMoves b t l2 := by
  intro l1
  induction l1 with
  | nil => intro l2 s; rfl
  | cons a t ih =>
    intro l2 s
    obtain ⟨i, d⟩ := a
    simp only [List.cons_append, runMoves]
    rcases h : moveOutcome b s i d with _ | s'
    · rfl
    · exact ih l2 s'

/-- Every prefix of a successful run succeeds. -/
theorem runMoves_take (b : Board) (robots0 : List RobotState)
    (ms : List (Nat × Dir)) (sfin : List RobotState)
    (h : runMoves b robots0 ms = some sfin) :
    ∀ j, j ≤ ms.length → ∃ sj, runMoves b robots0 (ms.take j) = some sj := by
  intro j hj
  have hsplit : ms = ms.take j ++ ms.drop j := (List.take_append_drop j ms).symm
  rw [hsplit, runMoves_append] at h
  rcases hr : runMoves b robots0 (ms.take j) with _ | sj
  · rw [hr] at h
    exact Option.noConfusion h
  · exact ⟨sj, rfl⟩

/-- The named prefix state is the prefix run's result. -/
theorem stM_spec (b : Board) (robots0 : List RobotState)
    (ms : List (Nat × Dir)) (sfin : List RobotState)
    (h : runMoves b robots0 ms = some sfin) (j : Nat) (hj : j ≤ ms.length) :
    runMoves b robots0 (ms.take j) = some (stM b robots0 ms j) := by
  obtain ⟨sj, hsj⟩ := runMoves_take b robots0 ms sfin h j hj
  rw [hsj]
  simp [stM, hsj]

/-- Reachable states stay in the search class. -/
theorem runMoves_InC (b : Board) (robots0 : List RobotState)
    (hwf : Wf robots0) :
    ∀ (ms : List (Nat × Dir)) (s0 s : List RobotState), InC robots0 s0 →
    runMoves b s0 ms = some s → InC robots0 s := by
  intro ms
  induction ms with
  | nil =>
    intro s0 s h0 h
    injection h with h2
    subst h2
    exact h0
  | cons a t ih =>
    intro s0 s h0 h
    obtain ⟨i, d⟩ := a
    simp only [runMoves] at h
    rcases hm : moveOutcome b s0 i d with _ | s'
    · simp only [hm] at h
      exact Option.noConfusion h
    · simp only [hm] at h
      exact ih s' s (moveOutcome_InC b robots0 s0 i d s' h0 hm) h

/-- The initial state is in its own search class. -/
theorem InC_init (robots0 : List RobotState) (hwf : Wf robots0) :
    InC robots0 robots0 :=
  ⟨rfl, fun r hr => (hwf.2 r hr).2⟩

/-- The j-th action of a successful run steps its prefix state to the
next prefix state. -/
theorem runMoves_step (b : Board) (robots0 : List RobotState)
    (ms : List (Nat × Dir)) (sfin : List RobotState)
    (h : runMoves b robots0 ms = some sfin) (j : Nat) (hj : j < ms.length)
    (i : Nat) (d : Dir) (ha : ms.get ⟨j, hj⟩ = (i, d)) :
    moveOutcome b (stM b robots0 ms j) i d =
      some (stM b robots0 ms (j + 1)) := by
  have h1 := stM_spec b robots0 ms sfin h j (by omega)
  have h2 := stM_spec b robots0 ms sfin h (j + 1) (by omega)
  have hsucc : ms.take (j + 1) = ms.take j ++ [(i, d)] := by
    rw [List.take_succ, List.getElem?_eq_getElem hj]
    rw [show ms[j] = (i, d) from ha]
    rfl
  have key : runMoves b (stM b robots0 ms j) [(i, d)] =
      some (stM b robots0 ms (j + 1)) := by
    have e := h2
    rw [hsucc, runMoves_append, h1] at e
    exact e
  simp only [runMoves] at key
  rcases hm : moveOutcome b (stM b robots0 ms j) i d with _ | t
  · simp only [hm] at key
    exact key
  · simp only [hm, runMoves] at key
    exact key

/-- Every in-range pair is tried by the expansion. -/
theorem mem_movePairs (n i : Nat) (d : Dir) (h : i < n) :
    (i, d) ∈ movePairs n := by
  unfold movePairs
  refine List.mem_flatMap.mpr ⟨i, List.mem_range.mpr h, ?_⟩
  exact List.mem_map.mpr ⟨d, by cases d <;> simp [directions], rfl⟩

/-- A found expansion is a one-action goal hit from the dequeued
state. -/
theorem expandMoves_found_spec (b : Board) (tc : String) (tx ty : Int)
    (cur : Node) :
    ∀ (pairs : List (Nat × Dir)) (acc : List Node) (vis : List String)
      (st : Nat) (pa : List PathStep),
    expandMoves b tc tx ty cur pairs acc vis = .found st pa →
    ∃ i d t, moveOutcome b cur.robots i d = some t ∧
      targetOnGoal t tc tx ty = true ∧ st = cur.steps + 1 := by
  intro pairs
  induction pairs with
  | nil =>
    intro acc vis st pa h
    simp only [expandMoves] at h
    exact ExpandStep.noConfusion h
  | cons pr rest ih =>
    intro acc vis st pa h
    obtain ⟨i, d⟩ := pr
    simp only [expandMoves] at h
    rcases hg : cur.robots[i]? with _ | robot
    · simp only [hg] at h
      exact ExpandStep.noConfusion h
    · simp only [hg] at h
      cases hmv : (simulateMove b robot d cur.robots).moved with
      | false =>
        rw [if_pos (by rw [hmv]; rfl)] at h
        exact ih _ _ _ _ h
      | true =>
        rw [if_neg (by rw [hmv]; decide)] at h
        rcases hf : (cur.robots.mapIdx (fun idx r =>
            if idx = i then ⟨r.color, (simulateMove b robot d cur.robots).finalX,
              (simulateMove b robot d cur.robots).finalY⟩ else r)).find?
            (fun r => r.color == tc) with _ | movedRobot
        · simp only [hf] at h
          exact ExpandStep.noConfusion h
        · simp only [hf] at h
          have hmo : moveOutcome b cur.robots i d = some
              (cur.robots.mapIdx (fun idx r =>
                if idx = i then ⟨r.color,
                  (simulateMove b robot d cur.robots).finalX,
                  (simulateMove b robot d cur.robots).finalY⟩ else r)) := by
            unfold moveOutcome
            rw [hg]
            simp only [hmv, if_true]
          have htg : targetOnGoal (cur.robots.mapIdx (fun idx r =>
              if idx = i then ⟨r.color,
                (simulateMove b robot d cur.robots).finalX,
                (simulateMove b robot d cur.robots).finalY⟩ else r)) tc tx ty =
              decide (movedRobot.x = tx ∧ movedRobot.y = ty) := by
            unfold targetOnGoal
            simp only [hf]
          by_cases hgoal : movedRobot.x = tx ∧ movedRobot.y = ty
          · rw [if_pos hgoal] at h
            by_cases hst : cur.steps + 1 < 2
            · rw [if_pos hst] at h
              exact ih _ _ _ _ h
            · rw [if_neg hst] at h
              injection h with h1 h2
              subst h1
              exact ⟨i, d, _, hmo, by rw [htg]; simp [hgoal], rfl⟩
          · rw [if_neg hgoal] at h
            by_cases hvc : vis.contains (stateToString (cur.robots.mapIdx
                (fun idx r => if idx = i then ⟨r.color,
                  (simulateMove b robot d cur.robots).finalX,
                  (simulateMove b robot d cur.robots).finalY⟩ else r))) = true
            · rw [if_pos hvc] at h
              exact ih _ _ _ _ h
            · rw [if_neg hvc] at h
              exact ih _ _ _ _ h

/-- Full characterization of a continuing expansion: the accumulator
grows by freshly discovered off-goal successors whose strings extend the
visited list one-to-one, and every successor of the dequeued state is
accounted for: an off-goal successor ends discovered, and a goal
successor can only have been discarded at depth zero. -/
theorem expandMoves_cont_spec (b : Board) (tc : String) (tx ty : Int)
    (cur : Node) :
    ∀ (pairs : List (Nat × Dir)) (acc : List Node) (vis : List String)
      (accOut : List Node) (visOut : List String),
    expandMoves b tc tx ty cur pairs acc vis = .cont accOut visOut →
    (∃ extra, accOut = acc ++ extra ∧
      visOut = vis ++ extra.map (fun n => stateToString n.robots) ∧
      ∀ n ∈ extra, n.steps = cur.steps + 1 ∧
        (∃ i d, moveOutcome b cur.robots i d = some n.robots) ∧
        targetOnGoal n.robots tc tx ty = false ∧
        stateToString n.robots ∉ vis) ∧
    (∀ i d t, (i, d) ∈ pairs → moveOutcome b cur.robots i d = some t →
      (targetOnGoal t tc tx ty = false → stateToString t ∈ visOut) ∧
      (targetOnGoal t tc tx ty = true → cur.steps = 0)) := by
  intro pairs
  induction pairs with
  | nil =>
    intro acc vis accOut visOut h
    simp only [expandMoves] at h
    injection h with h1 h2
    subst h1
    subst h2
    refine ⟨⟨[], by simp, by simp, by intro n hn; cases hn⟩, ?_⟩
    intro i d t hmem
    cases hmem
  | cons pr rest ih =>
    intro acc vis accOut visOut h
    obtain ⟨i, d⟩ := pr
    simp only [expandMoves] at h
    rcases hg : cur.robots[i]? with _ | robot
    · simp only [hg] at h
      exact ExpandStep.noConfusion h
    · simp only [hg] at h
      cases hmv : (simulateMove b robot d cur.robots).moved with
      | false =>
        rw [if_pos (by rw [hmv]; rfl)] at h
        obtain ⟨hpart1, hpart2⟩ := ih _ _ _ _ h
        refine ⟨hpart1, ?_⟩
        intro i2 d2 t hmem hmo
        rcases List.mem_cons.mp hmem with heq | hmem2
        · exfalso
          injection heq with he1 he2
          subst he1
          subst he2
          unfold moveOutcome at hmo
          rw [hg] at hmo
          simp only [hmv] at hmo
          exact Option.noConfusion hmo
        · exact hpart2 i2 d2 t hmem2 hmo
      | true =>
        rw [if_neg (by rw [hmv]; decide)] at h
        have hmo : moveOutcome b cur.robots i d = some
            (cur.robots.mapIdx (fun idx r =>
              if idx = i then ⟨r.color,
                (simulateMove b robot d cur.robots).finalX,
                (simulateMove b robot d cur.robots).finalY⟩ else r)) := by
          unfold moveOutcome
          rw [hg]
          simp only [hmv, if_true]
        rcases hf : (cur.robots.mapIdx (fun idx r =>
            if idx = i then ⟨r.color, (simulateMove b robot d cur.robots).finalX,
              (simulateMove b robot d cur.robots).finalY⟩ else r)).find?
            (fun r => r.color == tc) with _ | movedRobot
        · simp only [hf] at h
          exact ExpandStep.noConfusion h
        · simp only [hf] at h
          have htg : targetOnGoal (cur.robots.mapIdx (fun idx r =>
              if idx = i then ⟨r.color,
                (simulateMove b robot d cur.robots).finalX,
                (simulateMove b robot d cur.robots).finalY⟩ else r)) tc tx ty =
              decide (movedRobot.x = tx ∧ movedRobot.y = ty) := by
            unfold targetOnGoal
            simp only [hf]
          by_cases hgoal : movedRobot.x = tx ∧ movedRobot.y = ty
          · rw [if_pos hgoal] at h
            by_cases hst : cur.steps + 1 < 2
            · rw [if_pos hst] at h
              obtain ⟨hpart1, hpart2⟩ := ih _ _ _ _ h
              refine ⟨hpart1, ?_⟩
              intro i2 d2 t hmem hmo2
              rcases List.mem_cons.mp hmem with heq | hmem2
              · injection heq with he1 he2
                rw [he1, he2] at hmo2
                have ht : t = cur.robots.mapIdx (fun idx r =>
                    if idx = i then ⟨r.color,
                      (simulateMove b robot d cur.robots).finalX,
                      (simulateMove b robot d cur.robots).finalY⟩ else r) := by
                  have := hmo.symm.trans hmo2
                  exact (Option.some.inj this).symm
                subst ht
                constructor
                · intro hfalse
                  rw [htg] at hfalse
                  simp [hgoal] at hfalse
                · intro _
                  omega
              · exact hpart2 i2 d2 t hmem2 hmo2
            · rw [if_neg hst] at h
              exact ExpandStep.noConfusion h
          · rw [if_neg hgoal] at h
            by_cases hvc : vis.contains (stateToString (cur.robots.mapIdx
                (fun idx r => if idx = i then ⟨r.color,
                  (simulateMove b robot d cur.robots).finalX,
                  (simulateMove b robot d cur.robots).finalY⟩ else r))) = true
            · rw [if_pos hvc] at h
              obtain ⟨hpart1, hpart2⟩ := ih _ _ _ _ h
              obtain ⟨extra, hacc, hvis, hprops⟩ := hpart1
              refine ⟨⟨extra, hacc, hvis, hprops⟩, ?_⟩
              intro i2 d2 t hmem hmo2
              rcases List.mem_cons.mp hmem with heq | hmem2
              · injection heq with he1 he2
                rw [he1, he2] at hmo2
                have ht : t = cur.robots.mapIdx (fun idx r =>
                    if idx = i then ⟨r.color,
                      (simulateMove b robot d cur.robots).finalX,
                      (simulateMove b robot d cur.robots).finalY⟩ else r) := by
                  have := hmo.symm.trans hmo2
                  exact (Option.some.inj this).symm
                subst ht
                constructor
                · intro _
                  rw [hvis]
                  apply List.mem_append_left
                  simpa [List.contains, List.elem_eq_mem] using hvc
                · intro htrue
                  rw [htg] at htrue
                  simp at htrue
                  exact absurd htrue hgoal
              · exact hpart2 i2 d2 t hmem2 hmo2
            · rw [if_neg hvc] at h
              obtain ⟨hpart1, hpart2⟩ := ih _ _ _ _ h
              obtain ⟨extra, hacc, hvis, hprops⟩ := hpart1
              have hnotmem : stateToString (cur.robots.mapIdx (fun idx r =>
                  if idx = i then ⟨r.color,
                    (simulateMove b robot d cur.robots).finalX,
                    (simulateMove b robot d cur.robots).finalY⟩ else r)) ∉
                  vis := by
                intro hm2
                exact hvc (by simpa [List.contains, List.elem_eq_mem] using hm2)
              refine ⟨⟨⟨(cur.robots.mapIdx (fun idx r =>
                  if idx = i then ⟨r.color,
                    (simulateMove b robot d cur.robots).finalX,
                    (simulateMove b robot d cur.robots).finalY⟩ else r)),
                  cur.path ++ [⟨robot.color, d, robot.x, robot.y,
                    (simulateMove b robot d cur.robots).finalX,
                    (simulateMove b robot d cur.robots).finalY,
                    (simulateMove b robot d cur.robots).segments⟩],
                  cur.steps + 1⟩ :: extra, ?_, ?_, ?_⟩, ?_⟩
              · rw [hacc]
                simp
              · rw [hvis]
                simp
              · intro n hn
                rcases List.mem_cons.mp hn with heq | hn2
                · subst heq
                  refine ⟨rfl, ⟨i, d, hmo⟩, ?_, hnotmem⟩
                  rw [htg]
                  simp [hgoal]
                · obtain ⟨hp1, hp2, hp3, hp4⟩ := hprops n hn2
                  refine ⟨hp1, hp2, hp3, ?_⟩
                  intro hm2
                  exact hp4 (List.mem_append_left _ hm2)
              · intro i2 d2 t hmem hmo2
                rcases List.mem_cons.mp hmem with heq | hmem2
                · injection heq with he1 he2
                  rw [he1, he2] at hmo2
                  have ht : t = cur.robots.mapIdx (fun idx r =>
                      if idx = i then ⟨r.color,
                        (simulateMove b robot d cur.robots).finalX,
                        (simulateMove b robot d cur.robots).finalY⟩ else r) := by
                    have := hmo.symm.trans hmo2
                    exact (Option.some.inj this).symm
                  subst ht
                  constructor
                  · intro _
                    rw [hvis]
                    apply List.mem_append_left
                    exact List.mem_append_right _ (List.mem_cons_self _ _)
                  · intro htrue
                    rw [htg] at htrue
                    simp at htrue
                    exact absurd htrue hgoal
                · exact hpart2 i2 d2 t hmem2 hmo2

/-- Any success of the search loop is realized by a machine win
sequence of exactly the reported action count, provided every queue
node is reachable off-goal at its depth and the initial state string is
already visited. -/
theorem bfsLoop_upper (b : Board) (robots0 : List RobotState) (tc : String)
    (tx ty : Int) :
    ∀ (fuel : Nat) (q : List Node) (vis : List String) (se : Nat),
    (∀ n ∈ q, ReachOff b robots0 tc tx ty n.steps n.robots ∧
      (1 ≤ n.steps → n.robots ≠ robots0)) →
    stateToString robots0 ∈ vis →
    ∀ (st : Nat) (pa : List PathStep) (se' : Nat),
    bfsLoop b tc tx ty fuel q vis se = .success st pa se' →
    ∃ ms, MachineWinSeq b robots0 tc tx ty ms ∧ ms.length = st := by
  intro fuel
  induction fuel with
  | zero =>
    intro q vis se _ _ st pa se' h
    cases q <;> simp [bfsLoop] at h
  | succ fuel ih =>
    intro q vis se hq hvis0 st pa se' h
    cases q with
    | nil => simp [bfsLoop] at h
    | cons cur rest =>
      simp only [bfsLoop] at h
      split at h
      · cases h
      · split at h
        · rename_i st0 pa0 hexp
          injection h with h1 h2 h3
          subst h1
          obtain ⟨hreach, hne⟩ := hq cur (List.mem_cons_self _ _)
          obtain ⟨i, d, t, hmo, htg, hstep⟩ :=
            expandMoves_found_spec b tc tx ty cur _ _ _ _ _ hexp
          obtain ⟨hsteq, h2le⟩ :=
            expandMoves_found_steps b tc tx ty cur _ _ _ _ _ hexp
          obtain ⟨ms, hlen, hrun, hoff⟩ := hreach
          refine ⟨ms ++ [(i, d)], ⟨?_, ?_, ?_⟩, ?_⟩
          · unfold isWinSeq
            rw [Bool.and_eq_true]
            constructor
            · simp only [List.length_append, List.length_cons,
                List.length_nil, decide_eq_true_eq]
              omega
            · rw [runMoves_append, hrun]
              simp only [runMoves, hmo]
              simpa [Option.elim] using htg
          · intro k hk
            simp only [List.length_append, List.length_cons,
              List.length_nil] at hk
            rw [List.take_append_of_le_length (by omega)]
            exact hoff k (by omega)
          · have hta : (ms ++ [(i, d)]).take ((ms ++ [(i, d)]).length - 1) =
                ms := by
              simp
            rw [hta, hrun]
            intro hc
            injection hc with hc2
            exact hne (by omega) hc2
          · simp only [List.length_append, List.length_cons, List.length_nil]
            omega
        · rename_i hexp
          cases h
        · rename_i newNodes vis2 hexp
          obtain ⟨⟨extra, hacc, hvis, hprops⟩, _⟩ :=
            expandMoves_cont_spec b tc tx ty cur _ _ _ _ _ hexp
          refine ih (rest ++ newNodes) vis2 (se + 1) ?_ ?_ st pa se' h
          · intro n hn
            rcases List.mem_append.mp hn with hn | hn
            · exact hq n (List.mem_cons_of_mem _ hn)
            · have hnx : n ∈ extra := by
                rw [hacc] at hn
                simpa using hn
              obtain ⟨hst1, ⟨i, d, hmo⟩, htgf, hnvis⟩ := hprops n hnx
              obtain ⟨hreach, _⟩ := hq cur (List.mem_cons_self _ _)
              obtain ⟨ms, hlen, hrun, hoff⟩ := hreach
              constructor
              · refine ⟨ms ++ [(i, d)], ?_, ?_, ?_⟩
                · simp only [List.length_append, List.length_cons,
                    List.length_nil]
                  omega
                · rw [runMoves_append, hrun]
                  simp only [runMoves, hmo]
                · intro k hk
                  by_cases hkle : k ≤ ms.length
                  · rw [List.take_append_of_le_length hkle]
                    exact hoff k (by omega)
                  · have hktop : k = ms.length + 1 := by omega
                    rw [hktop, List.take_of_length_le (by simp)]
                    rw [runMoves_append, hrun]
                    simp only [runMoves, hmo, Option.elim]
                    rw [htgf]
                    rfl
              · intro _ hceq
                exact hnvis (hceq ▸ hvis0)
          · rw [hvis]
            exact List.mem_append_left _ hvis0

/-- In a two-block queue the head has minimal depth. -/
theorem TwoBlocks_head_le (d : Nat) (cur : Node) (rest : List Node)
    (h : TwoBlocks d (cur :: rest)) : ∀ n ∈ cur :: rest, cur.steps ≤ n.steps := by
  obtain ⟨q1, q2, heq, h1, h2⟩ := h
  cases q1 with
  | nil =>
    rw [List.nil_append] at heq
    intro n hn
    have hcur : cur.steps = d + 1 :=
      h2 cur (by rw [← heq]; exact List.mem_cons_self _ _)
    have hns : n.steps = d + 1 := h2 n (by rw [← heq]; exact hn)
    omega
  | cons a t =>
    rw [List.cons_append] at heq
    injection heq with h3 h4
    subst h3
    have hcur : cur.steps = d := h1 cur (List.mem_cons_self _ _)
    intro n hn
    rcases List.mem_cons.mp hn with hn | hn
    · subst hn
      exact le_rfl
    · rw [h4] at hn
      rcases List.mem_append.mp hn with hn | hn
      · rw [hcur, h1 n (List.mem_cons_of_mem _ hn)]
      · rw [hcur, h2 n hn]
        omega

/-- Removing the head and appending depth-plus-one nodes keeps the
queue in two-block shape. -/
theorem TwoBlocks_tail_append (d : Nat) (cur : Node) (rest extra : List Node)
    (h : TwoBlocks d (cur :: rest))
    (hex : ∀ n ∈ extra, n.steps = cur.steps + 1) :
    ∃ d2, TwoBlocks d2 (rest ++ extra) := by
  obtain ⟨q1, q2, heq, h1, h2⟩ := h
  cases q1 with
  | nil =>
    rw [List.nil_append] at heq
    refine ⟨d + 1, rest, extra, rfl, ?_, ?_⟩
    · intro n hn
      exact h2 n (by rw [← heq]; exact List.mem_cons_of_mem _ hn)
    · intro n hn
      have hcur : cur.steps = d + 1 :=
        h2 cur (by rw [← heq]; exact List.mem_cons_self _ _)
      rw [hex n hn, hcur]
  | cons a t =>
    rw [List.cons_append] at heq
    injection heq with h3 h4
    subst h3
    refine ⟨d, t, q2 ++ extra, by rw [h4, List.append_assoc], ?_, ?_⟩
    · intro n hn
      exact h1 n (List.mem_cons_of_mem _ hn)
    · intro n hn
      rcases List.mem_append.mp hn with hn | hn
      · exact h2 n hn
      · have hcur : cur.steps = d := h1 cur (List.mem_cons_self _ _)
        rw [hex n hn, hcur]

/-- Basic consequences of a machine win sequence: its length is at
least two and its full run puts the target on the goal. -/
theorem machineWinSeq_facts (b : Board) (robots0 : List RobotState)
    (tc : String) (tx ty : Int) (ms : List (Nat × Dir))
    (hM : MachineWinSeq b robots0 tc tx ty ms) :
    2 ≤ ms.length ∧ ∃ sfin, runMoves b robots0 ms = some sfin ∧
      targetOnGoal sfin tc tx ty = true := by
  obtain ⟨hwin, _, _⟩ := hM
  unfold isWinSeq at hwin
  rw [Bool.and_eq_true] at hwin
  obtain ⟨h1, h2⟩ := hwin
  refine ⟨by simpa using h1, ?_⟩
  rcases hr : runMoves b robots0 ms with _ | sfin
  · rw [hr] at h2
    simp [Option.elim] at h2
  · rw [hr] at h2
    exact ⟨sfin, rfl, by simpa [Option.elim] using h2⟩

/-- Every proper prefix state of a machine win sequence is off the
goal. -/
theorem stM_offGoal (b : Board) (robots0 : List RobotState) (tc : String)
    (tx ty : Int) (ms : List (Nat × Dir)) (sfin : List RobotState)
    (hrun : runMoves b robots0 ms = some sfin)
    (hoff : ∀ n : Nat, n < ms.length →
      ((runMoves b robots0 (ms.take n)).elim false
        (fun r => !(targetOnGoal r tc tx ty))) = true)
    (j : Nat) (hj : j < ms.length) :
    targetOnGoal (stM b robots0 ms j) tc tx ty = false := by
  have h1 := hoff j hj
  rw [stM_spec b robots0 ms sfin hrun j (by omega)] at h1
  simpa [Option.elim] using h1

/-- The zeroth prefix state is the initial state. -/
theorem stM_zero (b : Board) (robots0 : List RobotState)
    (ms : List (Nat × Dir)) : stM b robots0 ms 0 = robots0 := rfl

/-- The full-length prefix state is the run's final state. -/
theorem stM_full (b : Board) (robots0 : List RobotState)
    (ms : List (Nat × Dir)) (sfin : List RobotState)
    (hrun : runMoves b robots0 ms = some sfin) :
    stM b robots0 ms ms.length = sfin := by
  unfold stM
  rw [List.take_length, hrun]
  rfl

/-- Prefix states lie in the search class. -/
theorem stM_InC (b : Board) (robots0 : List RobotState) (hwf : Wf robots0)
    (ms : List (Nat × Dir)) (sfin : List RobotState)
    (hrun : runMoves b robots0 ms = some sfin) (j : Nat)
    (hj : j ≤ ms.length) : InC robots0 (stM b robots0 ms j) :=
  runMoves_InC b robots0 hwf (ms.take j) robots0 _ (InC_init robots0 hwf)
    (stM_spec b robots0 ms sfin hrun j hj)

/-- A machine win sequence that repeats a prefix state can be cut short
between the two occurrences, remaining a machine win sequence. -/
theorem machineWinSeq_shorten (b : Board) (robots0 : List RobotState)
    (tc : String) (tx ty : Int) (ms : List (Nat × Dir))
    (hM : MachineWinSeq b robots0 tc tx ty ms) (k1 k2 : Nat)
    (hk12 : k1 < k2) (hk2 : k2 ≤ ms.length - 1)
    (heq : stM b robots0 ms k1 = stM b robots0 ms k2) :
    ∃ ms2, MachineWinSeq b robots0 tc tx ty ms2 ∧
      ms2.length < ms.length := by
  obtain ⟨h2L, sfin, hrun, hfin⟩ :=
    machineWinSeq_facts b robots0 tc tx ty ms hM
  have hs1 := stM_spec b robots0 ms sfin hrun k1 (by omega)
  have hs2 := stM_spec b robots0 ms sfin hrun k2 (by omega)
  have hkey : ∀ m : Nat,
      runMoves b robots0 ((ms.take k1 ++ ms.drop k2).take (k1 + m)) =
      runMoves b robots0 (ms.take (k2 + m)) := by
    intro m
    have hlen1 : (ms.take k1).length = k1 := by
      rw [List.length_take]
      omega
    have e1 : (ms.take k1 ++ ms.drop k2).take (k1 + m) =
        ms.take k1 ++ (ms.drop k2).take m := by
      rw [show k1 + m = (ms.take k1).length + m from by rw [hlen1]]
      exact List.take_append m
    have e2 : ms.take (k2 + m) = ms.take k2 ++ (ms.drop k2).take m :=
      List.take_add ms k2 m
    rw [e1, e2, runMoves_append, runMoves_append, hs1, hs2, heq]
  have hlen2 : (ms.take k1 ++ ms.drop k2).length =
      k1 + (ms.length - k2) := by
    rw [List.length_append, List.length_take, List.length_drop]
    omega
  have hnot : ¬(k1 = 0 ∧ k2 = ms.length - 1) := by
    rintro ⟨h01, h02⟩
    apply hM.2.2
    rw [← h02, hs2, ← heq, h01, stM_zero]
  have hms2run : runMoves b robots0 (ms.take k1 ++ ms.drop k2) =
      some sfin := by
    have h3 := hkey (ms.length - k2)
    rw [List.take_of_length_le (by rw [hlen2])] at h3
    rw [show k2 + (ms.length - k2) = ms.length from by omega,
      List.take_length, hrun] at h3
    exact h3
  refine ⟨ms.take k1 ++ ms.drop k2, ⟨?_, ?_, ?_⟩, by rw [hlen2]; omega⟩
  · unfold isWinSeq
    rw [Bool.and_eq_true]
    constructor
    · simp only [decide_eq_true_eq]
      rw [hlen2]
      omega
    · rw [hms2run]
      simpa [Option.elim] using hfin
  · intro n hn
    rw [hlen2] at hn
    by_cases hnk : n ≤ k1
    · have e : (ms.take k1 ++ ms.drop k2).take n = ms.take n := by
        rw [List.take_append_of_le_length (by rw [List.length_take]; omega),
          List.take_take, show n ⊓ k1 = n from by omega]
      rw [e]
      exact hM.2.1 n (by omega)
    · have hm : n = k1 + (n - k1) := by omega
      rw [hm, hkey (n - k1)]
      exact hM.2.1 (k2 + (n - k1)) (by omega)
  · rw [show (ms.take k1 ++ ms.drop k2).length - 1 =
        k1 + (ms.length - k2 - 1) from by rw [hlen2]; omega]
    rw [hkey (ms.length - k2 - 1)]
    rw [show k2 + (ms.length - k2 - 1) = ms.length - 1 from by omega]
    exact hM.2.2

/-- No success of the search loop can report more actions than any
fixed machine win sequence whose prefix states have pairwise-distinct
canonical strings, given the breadth-first frontier invariants. -/
theorem bfsLoop_lower (b : Board) (robots0 : List RobotState) (tc : String)
    (tx ty : Int) (hwf : Wf robots0) (ms : List (Nat × Dir))
    (sfin : List RobotState)
    (hrun : runMoves b robots0 ms = some sfin)
    (hfin : targetOnGoal sfin tc tx ty = true)
    (h2L : 2 ≤ ms.length)
    (hoffM : ∀ n, n < ms.length →
      targetOnGoal (stM b robots0 ms n) tc tx ty = false)
    (hpre : stM b robots0 ms (ms.length - 1) ≠ robots0) :
    ∀ (fuel : Nat) (q : List Node) (vis : List String) (se j d0 : Nat),
    TwoBlocks d0 q →
    (∀ n ∈ q, InC robots0 n.robots ∧ (n.steps = 0 → n.robots = robots0)) →
    j ≤ ms.length - 1 →
    (∃ n ∈ q, n.steps ≤ j ∧
      stateToString n.robots = stateToString (stM b robots0 ms j)) →
    (∀ j2, j < j2 → j2 ≤ ms.length - 1 →
      stateToString (stM b robots0 ms j2) ∉ vis) →
    ∀ st pa se2, bfsLoop b tc tx ty fuel q vis se = .success st pa se2 →
    st ≤ ms.length := by
  intro fuel
  induction fuel with
  | zero =>
    intro q vis se j d0 _ _ _ _ _ st pa se2 h
    cases q <;> simp [bfsLoop] at h
  | succ fuel ih =>
    intro q vis se j d0 htb hval hjle hfront hclean st pa se2 h
    cases q with
    | nil => simp [bfsLoop] at h
    | cons cur rest =>
      obtain ⟨n0, hn0q, hn0le, hn0str⟩ := hfront
      have hcurle : cur.steps ≤ j :=
        le_trans (TwoBlocks_head_le d0 cur rest htb n0 hn0q) hn0le
      simp only [bfsLoop] at h
      split at h
      · cases h
      · split at h
        · rename_i st0 pa0 hexp
          injection h with h1 h2 h3
          subst h1
          obtain ⟨hsteq, _⟩ :=
            expandMoves_found_steps b tc tx ty cur _ _ _ _ _ hexp
          omega
        · rename_i hexp
          cases h
        · rename_i newNodes vis2 hexp
          obtain ⟨⟨extra, hacc, hvis, hprops⟩, hcomp⟩ :=
            expandMoves_cont_spec b tc tx ty cur _ _ _ _ _ hexp
          have hnnx : newNodes = extra := by simpa using hacc
          subst hnnx
          have hval2 : ∀ n ∈ rest ++ newNodes, InC robots0 n.robots ∧
              (n.steps = 0 → n.robots = robots0) := by
            intro n hn
            rcases List.mem_append.mp hn with hn | hn
            · exact hval n (List.mem_cons_of_mem _ hn)
            · obtain ⟨hst1, ⟨i, d, hmo⟩, _, _⟩ := hprops n hn
              refine ⟨moveOutcome_InC b robots0 cur.robots i d n.robots
                (hval cur (List.mem_cons_self _ _)).1 hmo, ?_⟩
              intro h0
              omega
          obtain ⟨d2, htb2⟩ := TwoBlocks_tail_append d0 cur rest newNodes htb
            (fun n hn => (hprops n hn).1)
          by_cases hex : ∃ k, j < k ∧ k ≤ ms.length - 1 ∧
              stateToString (stM b robots0 ms k) ∈ vis2
          · obtain ⟨k0, hk0a, hk0b, hk0c⟩ := hex
            have hPd := Nat.findGreatest_spec
              (P := fun k => j < k ∧ k ≤ ms.length - 1 ∧
                stateToString (stM b robots0 ms k) ∈ vis2)
              hk0b ⟨hk0a, hk0b, hk0c⟩
            set jd := Nat.findGreatest
              (fun k => j < k ∧ k ≤ ms.length - 1 ∧
                stateToString (stM b robots0 ms k) ∈ vis2)
              (ms.length - 1) with hjddef
            obtain ⟨hjd1, hjd2, hjd3⟩ := hPd
            have hcarrier : ∃ n ∈ newNodes, stateToString n.robots =
                stateToString (stM b robots0 ms jd) := by
              rw [hvis] at hjd3
              rcases List.mem_append.mp hjd3 with hmem | hmem
              · exact absurd hmem (hclean _ hjd1 hjd2)
              · obtain ⟨n, hn, hns⟩ := List.mem_map.mp hmem
                exact ⟨n, hn, hns⟩
            obtain ⟨nf, hnf, hnfs⟩ := hcarrier
            refine ih (rest ++ newNodes) vis2 (se + 1) jd d2 htb2 hval2 hjd2
              ⟨nf, List.mem_append_right _ hnf, ?_, hnfs⟩ ?_ st pa se2 h
            · have hnfst := (hprops nf hnf).1
              omega
            · intro j2 hj2a hj2b hmem
              exact Nat.findGreatest_is_greatest hj2a hj2b
                ⟨by omega, hj2b, hmem⟩
          · rcases List.mem_cons.mp hn0q with heq0 | hn0rest
            · exfalso
              rw [heq0] at hn0str
              have hInCcur : InC robots0 cur.robots :=
                (hval cur (List.mem_cons_self _ _)).1
              have hInCsj : InC robots0 (stM b robots0 ms j) :=
                stM_InC b robots0 hwf ms sfin hrun j (by omega)
              have hcureq : cur.robots = stM b robots0 ms j :=
                stateToString_inj robots0 hwf _ _ hInCcur hInCsj hn0str
              have hjlen : j < ms.length := by omega
              rcases ha : ms.get ⟨j, hjlen⟩ with ⟨ia, da⟩
              have hstep := runMoves_step b robots0 ms sfin hrun j hjlen
                ia da ha
              rw [← hcureq] at hstep
              have hia := moveOutcome_some_lt b cur.robots ia da _ hstep
              have hmemp := mem_movePairs cur.robots.length ia da hia
              have hcompj := hcomp ia da _ hmemp hstep
              by_cases hjL : j = ms.length - 1
              · have hLeq : j + 1 = ms.length := by omega
                have htgt : targetOnGoal (stM b robots0 ms (j + 1))
                    tc tx ty = true := by
                  rw [hLeq, stM_full b robots0 ms sfin hrun]
                  exact hfin
                have hzero : cur.steps = 0 := hcompj.2 htgt
                have hrr : cur.robots = robots0 :=
                  (hval cur (List.mem_cons_self _ _)).2 hzero
                apply hpre
                rw [← hjL, ← hcureq, hrr]
              · have hoffj1 : targetOnGoal (stM b robots0 ms (j + 1))
                    tc tx ty = false := hoffM (j + 1) (by omega)
                have hdisc := hcompj.1 hoffj1
                exact hex ⟨j + 1, by omega, by omega, hdisc⟩
            · refine ih (rest ++ newNodes) vis2 (se + 1) j d2 htb2 hval2 hjle
                ⟨n0, List.mem_append_left _ hn0rest, hn0le, hn0str⟩ ?_
                st pa se2 h
              intro j2 hj2a hj2b hmem
              exact hex ⟨j2, hj2a, hj2b, hmem⟩

/-- The search never reports more actions than any machine win
sequence: repeated-state sequences are first cut down, and
string-simple sequences are traced by the frontier invariant. -/
theorem bfs_minimal_aux (b : Board) (robots0 : List RobotState)
    (tc : String) (tx ty : Int) (hwf : Wf robots0) :
    ∀ (N : Nat) (ms : List (Nat × Dir)), ms.length ≤ N →
    MachineWinSeq b robots0 tc tx ty ms →
    ∀ st pa se2, bfsSearch b robots0 tc tx ty = .success st pa se2 →
    st ≤ ms.length := by
  intro N
  induction N with
  | zero =>
    intro ms hlen hM st pa se2 h
    obtain ⟨h2L, _⟩ := machineWinSeq_facts b robots0 tc tx ty ms hM
    omega
  | succ N ih =>
    intro ms hlen hM st pa se2 h
    obtain ⟨h2L, sfin, hrun, hfin⟩ :=
      machineWinSeq_facts b robots0 tc tx ty ms hM
    by_cases hrep : ∃ k2, k2 ≤ ms.length - 1 ∧ ∃ k1, k1 < k2 ∧
        stateToString (stM b robots0 ms k1) =
          stateToString (stM b robots0 ms k2)
    · obtain ⟨k2, hk2, k1, hk12, hstr⟩ := hrep
      have hInC1 : InC robots0 (stM b robots0 ms k1) :=
        stM_InC b robots0 hwf ms sfin hrun k1 (by omega)
      have hInC2 : InC robots0 (stM b robots0 ms k2) :=
        stM_InC b robots0 hwf ms sfin hrun k2 (by omega)
      have heq := stateToString_inj robots0 hwf _ _ hInC1 hInC2 hstr
      obtain ⟨ms2, hM2, hlt⟩ :=
        machineWinSeq_shorten b robots0 tc tx ty ms hM k1 k2 hk12 hk2 heq
      have hb := ih ms2 (by omega) hM2 st pa se2 h
      omega
    · push_neg at hrep
      have hoffM : ∀ n, n < ms.length →
          targetOnGoal (stM b robots0 ms n) tc tx ty = false :=
        fun n hn => stM_offGoal b robots0 tc tx ty ms sfin hrun hM.2.1 n hn
      have hpre : stM b robots0 ms (ms.length - 1) ≠ robots0 := by
        intro hc
        apply hM.2.2
        rw [stM_spec b robots0 ms sfin hrun (ms.length - 1) (by omega), hc]
      unfold bfsSearch at h
      refine bfsLoop_lower b robots0 tc tx ty hwf ms sfin hrun hfin h2L
        hoffM hpre (maxIterations + 2) [⟨robots0, [], 0⟩]
        [stateToString robots0] 0 0 0 ?_ ?_ (by omega) ?_ ?_ st pa se2 h
      · refine ⟨[⟨robots0, [], 0⟩], [], by simp, ?_, ?_⟩
        · intro n hn
          rcases List.mem_cons.mp hn with h1 | h1
          · rw [h1]
          · cases h1
        · intro n hn
          cases hn
      · intro n hn
        rcases List.mem_cons.mp hn with h1 | h1
        · subst h1
          exact ⟨InC_init robots0 hwf, fun _ => rfl⟩
        · cases h1
      · exact ⟨⟨robots0, [], 0⟩, List.mem_cons_self _ _, le_refl 0,
          by rw [stM_zero]⟩
      · intro j2 hj2a hj2b hmem
        rcases List.mem_cons.mp hmem with h1 | h1
        · exact (hrep j2 hj2b 0 hj2a) (by rw [stM_zero]; exact h1.symm)
        · cases h1

/-- C3: when the search succeeds with k actions from a well-formed
off-goal start, k is realized by a machine win sequence (a valid
non-zero-displacement solution of at least two actions whose
intermediate states avoid the goal and whose state before the final
action differs from the initial state), and no machine win sequence is
shorter: the breadth-first traversal is minimal over exactly those
sequences. -/
theorem c3_bfs_minimality (b : Board) (robots0 : List RobotState)
    (tc : String) (tx ty : Int) (hwf : Wf robots0)
    (hng : targetOnGoal robots0 tc tx ty = false)
    (st : Nat) (pa : List PathStep) (se : Nat)
    (h : bfsSearch b robots0 tc tx ty = .success st pa se) :
    (∃ ms, MachineWinSeq b robots0 tc tx ty ms ∧ ms.length = st) ∧
    (∀ ms, MachineWinSeq b robots0 tc tx ty ms → st ≤ ms.length) := by
  constructor
  · unfold bfsSearch at h
    refine bfsLoop_upper b robots0 tc tx ty (maxIterations + 2)
      [⟨robots0, [], 0⟩] [stateToString robots0] 0 ?_
      (List.mem_cons_self _ _) st pa se h
    intro n hn
    rcases List.mem_cons.mp hn with h1 | h1
    · subst h1
      constructor
      · refine ⟨[], rfl, rfl, ?_⟩
        intro k hk
        simp [runMoves, Option.elim, hng]
      · intro hc
        simp at hc
    · cases h1
  · intro ms hM
    exact bfs_minimal_aux b robots0 tc tx ty hwf ms.length ms le_rfl hM
      st pa se h

/-- C3, counterexample to the frozen claim: on the two-wall board the
search returns success with 4 actions, yet a 3-action sequence of valid
non-zero-displacement moves satisfies the acceptance rule (at least two
actions, target token on the goal); the search does not minimize over
all such sequences, because this one passes back through the initial
state right before its final action. -/
theorem c3_counterexample :
    bfsSearch bMin [⟨"red", 0, 0⟩] "red" 5 0 = .success 4 c3wPath 4 ∧
    isWinSeq bMin [⟨"red", 0, 0⟩] "red" 5 0
      [(0, .down), (0, .up), (0, .right)] = true ∧ (3 : Nat) < 4 :=
  ⟨rfl, by decide, by decide⟩

/-- Witness: the hypotheses of the minimality theorem hold for the
two-wall board's red token, and the theorem applies to its success. -/
theorem c3_bfs_minimality_witness :
    Wf [⟨"red", 0, 0⟩] ∧
    targetOnGoal [⟨"red", 0, 0⟩] "red" 5 0 = false ∧
    ((∃ ms, MachineWinSeq bMin [⟨"red", 0, 0⟩] "red" 5 0 ms ∧
        ms.length = 4) ∧
      (∀ ms, MachineWinSeq bMin [⟨"red", 0, 0⟩] "red" 5 0 ms →
        4 ≤ ms.length)) :=
  ⟨by decide, by decide,
    c3_bfs_minimality bMin [⟨"red", 0, 0⟩] "red" 5 0 (by decide) (by decide)
      4 c3wPath 4 rfl⟩

end Puzzle
